import Mathlib

/-!
Verification of the incremental SSE-style stream decoder `streamChat`
(frontend streaming-chat template).  The decoder consumes raw byte chunks,
decodes them incrementally as UTF-8, reassembles newline-terminated logical
lines, classifies each line (comment / blank / data / sentinel), parses the
payload of data lines as JSON, and emits the nested delta-content field to a
sink.  We embed the TypeScript code shallowly: JavaScript strings become
`List Char`, byte chunks become `List Nat`, the three callback channels
become an ordered event list, and the fallible byte source is modelled by
the list of successfully delivered chunks plus a terminal marker saying
whether the source then closed cleanly or threw.
-/

set_option maxRecDepth 10000

/-- Strings of the embedded program: JavaScript strings as lists of
unicode scalar values. -/
abbrev JSStr := List Char

/-- Convenience: a Lean string literal as a `JSStr`. -/
def str (s : String) : JSStr := s.data

/-- UTF-8 bytes of an ASCII string (for concrete test inputs every
character is below 0x80, so the UTF-8 encoding is the identity on code
points). -/
def asciiBytes (s : String) : List Nat := s.data.map Char.toNat

/-- JavaScript `String.prototype.trim` whitespace test (WhiteSpace and
LineTerminator code points). -/
def jsWsB (c : Char) : Bool :=
  c == ' ' || c == '\t' || c == '\n' || c == '\r' ||
  c == (Char.ofNat 0x0B) || c == (Char.ofNat 0x0C) ||
  c == (Char.ofNat 0xA0) || c == (Char.ofNat 0xFEFF) ||
  c == (Char.ofNat 0x1680) ||
  (0x2000 ≤ c.toNat && c.toNat ≤ 0x200A) ||
  c == (Char.ofNat 0x2028) || c == (Char.ofNat 0x2029) ||
  c == (Char.ofNat 0x202F) || c == (Char.ofNat 0x205F) ||
  c == (Char.ofNat 0x3000)

/-- JSON insignificant whitespace (RFC 8259: space, tab, newline, return). -/
def jsonWsB (c : Char) : Bool :=
  c == ' ' || c == '\t' || c == '\n' || c == '\r'

/-- Decimal digit test. -/
def isDigitB (c : Char) : Bool := '0' ≤ c && c ≤ '9'

/-- JavaScript `s.startsWith(p)` on the `List Char` representation. -/
def startsWithL (s p : JSStr) : Bool :=
  match p, s with
  | [], _ => true
  | _ :: _, [] => false
  | pc :: ps, sc :: ss => sc == pc && startsWithL ss ps

/-- Split a string at its first newline: `some (line, rest)` with
`s = line ++ (cons newline rest)`, or `none` when no newline occurs.
This is `textBuffer.indexOf` of a newline plus the two `slice` calls. -/
def splitNL : JSStr → Option (JSStr × JSStr)
  | [] => none
  | c :: cs =>
    if c = '\n' then some ([], cs)
    else (splitNL cs).map (fun lr => (c :: lr.1, lr.2))

/-- Fuelled worker for `String.prototype.split` at newlines. -/
def splitAllF : Nat → JSStr → List JSStr
  | 0, s => [s]
  | n+1, s =>
    match splitNL s with
    | none => [s]
    | some (l, r) => l :: splitAllF n r

/-- JavaScript `textBuffer.split` at the newline character: every segment,
including empty ones and the trailing unterminated one. -/
def splitAllNL (s : JSStr) : List JSStr := splitAllF (s.length + 1) s

/-- JavaScript `line.endsWith CR` then `line.slice(0, -1)`: remove one
trailing carriage return when present. -/
def stripCR (l : JSStr) : JSStr :=
  if l.getLast? = some '\r' then l.dropLast else l

/-- Remove every trailing carriage return (normal form used to compare
buffers that differ only in how often a pushed-back line was re-stripped). -/
def rstripCR (l : JSStr) : JSStr :=
  (l.reverse.dropWhile (· == '\r')).reverse

/-- Leading-whitespace strip of JavaScript `trim`. -/
def trimStart (s : JSStr) : JSStr := s.dropWhile jsWsB

/-- Trailing-whitespace strip of JavaScript `trim`. -/
def trimEnd (s : JSStr) : JSStr := (s.reverse.dropWhile jsWsB).reverse

/-- JavaScript `String.prototype.trim`. -/
def jsTrim (s : JSStr) : JSStr := trimEnd (trimStart s)

/-- Skip JSON insignificant whitespace. -/
def skipWs (s : JSStr) : JSStr := s.dropWhile jsonWsB

/-- JSON values as produced by `JSON.parse`.  Numbers keep their source
lexeme: the decoder never does arithmetic on them, it only tests
truthiness and extracts strings, so no floating-point semantics is
needed. -/
inductive Json where
  | null : Json
  | bool : Bool → Json
  | num : JSStr → Json
  | str : JSStr → Json
  | arr : List Json → Json
  | obj : List (JSStr × Json) → Json

/-- A JavaScript value that is either a `Json` value or `undefined`
(the result of a property access that found nothing). -/
inductive JSVal where
  | undefined : JSVal
  | val : Json → JSVal

/-- One observable event of a decode session: a delta handed to `onDelta`,
the `onDone` completion signal, or the `onError` signal with the value
passed to the error callback (string literals become `Json.str`). -/
inductive Ev where
  | delta : Json → Ev
  | done : Ev
  | error : Json → Ev

/-- Result of running the inner line-scanning loop on the pending buffer:
the emitted events, the new buffer content, and the `streamDone` flag. -/
structure ScanOut where
  evs : List Ev
  buf : JSStr
  sd : Bool

/-- Classification of one extracted logical line. -/
inductive LineClass where
  | skip : LineClass
  | sentinel : LineClass
  | emit : List Ev → LineClass
  | fail : LineClass

/-- How the byte source ends after the listed chunks were delivered:
a clean close (read resolves with done) or a thrown read (transport
failure). -/
inductive SourceEnd where
  | clean : SourceEnd
  | failed : SourceEnd

/-- Streaming UTF-8 decoder state (WHATWG TextDecoder): how many
continuation bytes are still needed, how many were seen, the partial code
point, and the admissible range of the next continuation byte. -/
structure Utf8State where
  needed : Nat
  seen : Nat
  cp : Nat
  lo : Nat
  hi : Nat

/-- Initial UTF-8 decoder state. -/
def utf8Init : Utf8State := ⟨0, 0, 0, 0x80, 0xBF⟩

/-- Hexadecimal digit value. -/
def hexVal? (c : Char) : Option Nat :=
  if '0' ≤ c ∧ c ≤ '9' then some (c.toNat - 48)
  else if 'a' ≤ c ∧ c ≤ 'f' then some (c.toNat - 87)
  else if 'A' ≤ c ∧ c ≤ 'F' then some (c.toNat - 55)
  else none

/-- Four hexadecimal digits of a JSON unicode escape. -/
def parseHex4 : JSStr → Option (Nat × JSStr)
  | a :: b :: c :: d :: rest =>
    match hexVal? a, hexVal? b, hexVal? c, hexVal? d with
    | some x1, some x2, some x3, some x4 =>
      some ((((x1 * 16 + x2) * 16 + x3) * 16 + x4), rest)
    | _, _, _, _ => none
  | _ => none

/-- Replacement character. -/
def replChar : Char := Char.ofNat 0xFFFD

/-- Body of a JSON string after the opening quote, with escape
processing; returns the decoded content and the rest after the closing
quote.  Surrogate pairs in unicode escapes are combined; a lone
surrogate (which `JSON.parse` would keep as an unpaired UTF-16 unit,
unrepresentable in a scalar-value string) is modelled as U+FFFD. -/
def parseStrBody : Nat → JSStr → Option (JSStr × JSStr)
  | 0, _ => none
  | _+1, [] => none
  | n+1, c :: cs =>
    if c == '"' then some ([], cs)
    else if c == '\\' then
      match cs with
      | [] => none
      | e :: cs' =>
        if e == '"' then (parseStrBody n cs').map (fun tr => ('"' :: tr.1, tr.2))
        else if e == '\\' then (parseStrBody n cs').map (fun tr => ('\\' :: tr.1, tr.2))
        else if e == '/' then (parseStrBody n cs').map (fun tr => ('/' :: tr.1, tr.2))
        else if e == 'b' then (parseStrBody n cs').map (fun tr => (Char.ofNat 8 :: tr.1, tr.2))
        else if e == 'f' then (parseStrBody n cs').map (fun tr => (Char.ofNat 12 :: tr.1, tr.2))
        else if e == 'n' then (parseStrBody n cs').map (fun tr => ('\n' :: tr.1, tr.2))
        else if e == 'r' then (parseStrBody n cs').map (fun tr => ('\r' :: tr.1, tr.2))
        else if e == 't' then (parseStrBody n cs').map (fun tr => ('\t' :: tr.1, tr.2))
        else if e == 'u' then
          match parseHex4 cs' with
          | none => none
          | some (u, r1) =>
            if 0xD800 ≤ u ∧ u ≤ 0xDBFF then
              match r1 with
              | '\\' :: 'u' :: r2 =>
                match parseHex4 r2 with
                | some (u2, r3) =>
                  if 0xDC00 ≤ u2 ∧ u2 ≤ 0xDFFF then
                    (parseStrBody n r3).map
                      (fun tr => (Char.ofNat (0x10000 + (u - 0xD800) * 0x400 + (u2 - 0xDC00)) :: tr.1, tr.2))
                  else (parseStrBody n r1).map (fun tr => (replChar :: tr.1, tr.2))
                | none => (parseStrBody n r1).map (fun tr => (replChar :: tr.1, tr.2))
              | _ => (parseStrBody n r1).map (fun tr => (replChar :: tr.1, tr.2))
            else if 0xDC00 ≤ u ∧ u ≤ 0xDFFF then
              (parseStrBody n r1).map (fun tr => (replChar :: tr.1, tr.2))
            else (parseStrBody n r1).map (fun tr => (Char.ofNat u :: tr.1, tr.2))
        else none
    else if c.toNat < 0x20 then none
    else (parseStrBody n cs).map (fun tr => (c :: tr.1, tr.2))

/-- Optional fraction part of a JSON number. -/
def parseFrac (s : JSStr) : Option (JSStr × JSStr) :=
  match s with
  | '.' :: r =>
    let ds := r.takeWhile isDigitB
    if ds.isEmpty then none else some ('.' :: ds, r.dropWhile isDigitB)
  | _ => some ([], s)

/-- Optional exponent part of a JSON number. -/
def parseExp (s : JSStr) : Option (JSStr × JSStr) :=
  match s with
  | c :: r =>
    if c == 'e' || c == 'E' then
      let sg : JSStr × JSStr :=
        match r with
        | '+' :: rr => (['+'], rr)
        | '-' :: rr => (['-'], rr)
        | _ => ([], r)
      let ds := sg.2.takeWhile isDigitB
      if ds.isEmpty then none
      else some (c :: (sg.1 ++ ds), sg.2.dropWhile isDigitB)
    else some ([], s)
  | [] => some ([], [])

/-- JSON number (RFC 8259 grammar); returns the lexeme and the rest. -/
def parseNumber (s : JSStr) : Option (JSStr × JSStr) :=
  let sg : JSStr × JSStr :=
    match s with
    | '-' :: r => (['-'], r)
    | _ => ([], s)
  match sg.2 with
  | '0' :: r =>
    match parseFrac r with
    | none => none
    | some (f, r2) =>
      match parseExp r2 with
      | none => none
      | some (e, r3) => some (sg.1 ++ '0' :: (f ++ e), r3)
  | c :: r =>
    if isDigitB c then
      let ds := r.takeWhile isDigitB
      match parseFrac (r.dropWhile isDigitB) with
      | none => none
      | some (f, r2) =>
        match parseExp r2 with
        | none => none
        | some (e, r3) => some (sg.1 ++ c :: (ds ++ f ++ e), r3)
    else none
  | [] => none

mutual

/-- Fuelled JSON value parser (recursive-descent embedding of
`JSON.parse`); skips leading whitespace itself. -/
def parseVal : Nat → JSStr → Option (Json × JSStr)
  | 0, _ => none
  | n+1, s0 =>
    match skipWs s0 with
    | [] => none
    | c :: cs =>
      if c == '{' then
        match skipWs cs with
        | '}' :: r => some (.obj [], r)
        | s1 => (parseMembers n s1).map (fun kr => (.obj kr.1, kr.2))
      else if c == '[' then
        match skipWs cs with
        | ']' :: r => some (.arr [], r)
        | s1 => (parseElems n s1).map (fun xr => (.arr xr.1, xr.2))
      else if c == '"' then
        (parseStrBody (cs.length + 1) cs).map (fun tr => (.str tr.1, tr.2))
      else if c == 't' then
        match cs with
        | 'r' :: 'u' :: 'e' :: r => some (.bool true, r)
        | _ => none
      else if c == 'f' then
        match cs with
        | 'a' :: 'l' :: 's' :: 'e' :: r => some (.bool false, r)
        | _ => none
      else if c == 'n' then
        match cs with
        | 'u' :: 'l' :: 'l' :: r => some (.null, r)
        | _ => none
      else
        (parseNumber (c :: cs)).map (fun lr => (.num lr.1, lr.2))

/-- Members of a JSON object after the opening brace (nonempty case). -/
def parseMembers : Nat → JSStr → Option (List (JSStr × Json) × JSStr)
  | 0, _ => none
  | n+1, s =>
    match skipWs s with
    | '"' :: cs =>
      match parseStrBody (cs.length + 1) cs with
      | none => none
      | some (k, r1) =>
        match skipWs r1 with
        | ':' :: r2 =>
          match parseVal n r2 with
          | none => none
          | some (v, r3) =>
            match skipWs r3 with
            | ',' :: r4 => (parseMembers n r4).map (fun kr => ((k, v) :: kr.1, kr.2))
            | '}' :: r4 => some ([(k, v)], r4)
            | _ => none
        | _ => none
    | _ => none

/-- Elements of a JSON array after the opening bracket (nonempty case). -/
def parseElems : Nat → JSStr → Option (List Json × JSStr)
  | 0, _ => none
  | n+1, s =>
    match parseVal n s with
    | none => none
    | some (v, r1) =>
      match skipWs r1 with
      | ',' :: r2 => (parseElems n r2).map (fun xr => (v :: xr.1, xr.2))
      | ']' :: r2 => some ([v], r2)
      | _ => none

end

/-- Embedding of `JSON.parse`: a single JSON value with optional
surrounding whitespace and nothing after it; `none` models a thrown
`SyntaxError`. -/
def jsonParse (s : JSStr) : Option Json :=
  match parseVal (s.length + 1) s with
  | some (j, r) => if (skipWs r).isEmpty then some j else none
  | none => none

/-- Lookup of an object member; JavaScript keeps the value of the last
duplicate key. -/
def objLookupLast (kvs : List (JSStr × Json)) (k : JSStr) : Option Json :=
  (kvs.reverse.find? (fun p => p.1 == k)).map (fun p => p.2)

/-- Canonical numeric array-index string. -/
def natKey? (k : JSStr) : Option Nat :=
  if k.isEmpty then none
  else if k.all isDigitB && (k = ['0'] ∨ k.head? ≠ some '0') then
    some (k.foldl (fun n c => n * 10 + (c.toNat - 48)) 0)
  else none

/-- JavaScript property access `o[k]` on a parsed JSON value: `none`
models the TypeError thrown when the base is `null`; otherwise the member
value, or `undefined` when absent.  Primitive bases are boxed and have no
own properties besides string indices and length. -/
def getProp : Json → JSStr → Option JSVal
  | .null, _ => none
  | .obj kvs, k =>
    some (match objLookupLast kvs k with
          | some j => .val j
          | none => .undefined)
  | .arr xs, k =>
    some (match natKey? k with
          | some i => match xs.get? i with
                      | some j => .val j
                      | none => .undefined
          | none => if k = str "length" then .val (.num (str (toString xs.length))) else .undefined)
  | .str s, k =>
    some (match natKey? k with
          | some i => match s.get? i with
                      | some c => .val (.str [c])
                      | none => .undefined
          | none => if k = str "length" then .val (.num (str (toString s.length))) else .undefined)
  | .num _, _ => some .undefined
  | .bool _, _ => some .undefined

/-- Element access `v[0]` after an optional-chaining guard (base is
neither `null` nor `undefined`, so no throw is possible). -/
def getIndex0 : Json → JSVal
  | .null => .undefined
  | .obj kvs =>
    match objLookupLast kvs ['0'] with
    | some j => .val j
    | none => .undefined
  | .arr xs =>
    match xs.head? with
    | some j => .val j
    | none => .undefined
  | .str s =>
    match s.head? with
    | some c => .val (.str [c])
    | none => .undefined
  | .num _ => .undefined
  | .bool _ => .undefined

/-- Optional chaining `v?.step`: short-circuit to `undefined` on `null`
or `undefined`, otherwise apply the access. -/
def optChain (v : JSVal) (f : Json → JSVal) : JSVal :=
  match v with
  | .undefined => .undefined
  | .val .null => .undefined
  | .val j => f j

/-- Property access on an optional-chaining-guarded base never throws. -/
def propOrUndef (j : Json) (k : JSStr) : JSVal := (getProp j k).getD .undefined

/-- JavaScript truthiness of a JSON value (falsy: null, false, zero,
empty string). -/
def jsTruthy : Json → Bool
  | .null => false
  | .bool b => b
  | .num lex =>
    !((lex.takeWhile (fun c => c != 'e' && c != 'E')).any
        (fun c => isDigitB c && c != '0'))
  | .str s => !s.isEmpty
  | .arr _ => true
  | .obj _ => true

/-- Embedding of `parsed.choices?.[0]?.delta?.content`: `none` models the
TypeError thrown when `parsed` itself is `null`. -/
def extractContent (parsed : Json) : Option JSVal :=
  match getProp parsed (str "choices") with
  | none => none
  | some choices =>
    some (optChain
           (optChain (optChain choices getIndex0) (fun j => propOrUndef j (str "delta")))
           (fun j => propOrUndef j (str "content")))

/-- Embedding of `if (content) onDelta(content)`. -/
def deltaEvents (v : JSVal) : List Ev :=
  match v with
  | .undefined => []
  | .val j => if jsTruthy j then [Ev.delta j] else []

/-- The try-block of the data-line handler: parse the payload, extract the
delta content, and emit it when truthy; `none` means the catch-block
fires. -/
def tryDelta (jsonStr : JSStr) : Option (List Ev) :=
  match jsonParse jsonStr with
  | none => none
  | some parsed => (extractContent parsed).map deltaEvents

/-- Comment-line marker. -/
def colonTok : JSStr := str ":"

/-- Recognized data-line marker `data:` followed by one space. -/
def dataTag : JSStr := str "data: "

/-- End-of-stream sentinel token. -/
def doneTok : JSStr := str "[DONE]"

/-- Generic network-failure message of the outer catch handler. -/
def errConnMsg : JSStr := str "Network connection failed, please check your network and retry"

/-- Rate-limit fallback message for status 429. -/
def msg429 : JSStr := str "Request rate too high, please try again later"

/-- Quota fallback message for status 402. -/
def msg402 : JSStr := str "Insufficient quota, please recharge to continue"

/-- Generic non-success fallback message. -/
def msgConnFailed : JSStr := str "Connection failed, please retry"

/-- Missing-body message. -/
def msgNoBody : JSStr := str "Unable to get response stream"

/-- Classification of a carriage-return-normalized logical line, shared
verbatim by the live scan loop and the final flush: skip comments,
blank-after-trim lines and lines without the data marker; detect the
sentinel on the trimmed payload; otherwise run the parse/extract/emit
try-block, `fail` meaning its catch fired. -/
def lineCore (line : JSStr) : LineClass :=
  if startsWithL line colonTok || (jsTrim line).isEmpty then .skip
  else if !(startsWithL line dataTag) then .skip
  else
    let jsonStr := jsTrim (line.drop 6)
    if jsonStr = doneTok then .sentinel
    else
      match tryDelta jsonStr with
      | none => .fail
      | some es => .emit es

/-- Processing of one raw extracted line: strip one trailing carriage
return, then classify. -/
def lineStep (l0 : JSStr) : LineClass := lineCore (stripCR l0)

/-- Fuelled worker for the inner scan loop of `streamChat`: repeatedly
extract the first newline-terminated line from the buffer and process it;
on the sentinel set `streamDone` and stop; when the try-block catches,
push the (carriage-return-stripped) line plus a newline back to the front
of the buffer and stop. -/
def scanLiveF : Nat → JSStr → ScanOut
  | 0, buf => ⟨[], buf, false⟩
  | n+1, buf =>
    match splitNL buf with
    | none => ⟨[], buf, false⟩
    | some (l0, rest) =>
      match lineStep l0 with
      | .skip => scanLiveF n rest
      | .sentinel => ⟨[], rest, true⟩
      | .emit es =>
        let o := scanLiveF n rest
        ⟨es ++ o.evs, o.buf, o.sd⟩
      | .fail => ⟨[], stripCR l0 ++ '\n' :: rest, false⟩

/-- The inner scan loop (`while indexOf newline` of `streamChat`). -/
def scanLive (buf : JSStr) : ScanOut := scanLiveF (buf.length + 1) buf

/-- Processing of one candidate line during the final flush: empty raw
segments are skipped, the sentinel is skipped, and a catch is ignored
(only `emit` produces events). -/
def flushLine (raw : JSStr) : List Ev :=
  if raw.isEmpty then []
  else
    match lineStep raw with
    | .emit es => es
    | _ => []

/-- The final flush of `streamChat`: when the leftover buffer is nonblank,
process every newline-separated segment once, discarding failures. -/
def flushEvents (buf : JSStr) : List Ev :=
  if (jsTrim buf).isEmpty then []
  else ((splitAllNL buf).map flushLine).flatten

/-- First-byte step of the WHATWG streaming UTF-8 decoder. -/
def utf8Initial (b : Nat) : List Char × Utf8State :=
  if b ≤ 0x7F then ([Char.ofNat b], utf8Init)
  else if 0xC2 ≤ b ∧ b ≤ 0xDF then ([], ⟨1, 0, b % 32, 0x80, 0xBF⟩)
  else if b = 0xE0 then ([], ⟨2, 0, b % 16, 0xA0, 0xBF⟩)
  else if b = 0xED then ([], ⟨2, 0, b % 16, 0x80, 0x9F⟩)
  else if 0xE1 ≤ b ∧ b ≤ 0xEF then ([], ⟨2, 0, b % 16, 0x80, 0xBF⟩)
  else if b = 0xF0 then ([], ⟨3, 0, b % 8, 0x90, 0xBF⟩)
  else if 0xF1 ≤ b ∧ b ≤ 0xF3 then ([], ⟨3, 0, b % 8, 0x80, 0xBF⟩)
  else if b = 0xF4 then ([], ⟨3, 0, b % 8, 0x80, 0x8F⟩)
  else ([replChar], utf8Init)

/-- One byte of the WHATWG streaming UTF-8 decoder: continuation bytes
accumulate into the pending code point; an out-of-range byte emits a
replacement character and is reprocessed from the initial state. -/
def utf8Byte (st : Utf8State) (b : Nat) : List Char × Utf8State :=
  if st.needed = 0 then utf8Initial b
  else if b < st.lo ∨ st.hi < b then
    let p := utf8Initial b
    (replChar :: p.1, p.2)
  else
    let cp := st.cp * 64 + (b % 64)
    if st.seen + 1 = st.needed then ([Char.ofNat cp], utf8Init)
    else ([], ⟨st.needed, st.seen + 1, cp, 0x80, 0xBF⟩)

/-- Run the streaming UTF-8 decoder over a chunk, threading the carried
state (this is `decoder.decode(value, stream true)`); bytes of a
trailing incomplete sequence stay in the state. -/
def utf8Run (st : Utf8State) : List Nat → JSStr × Utf8State
  | [] => ([], st)
  | b :: bs =>
    let p := utf8Byte st b
    let q := utf8Run p.2 bs
    (p.1 ++ q.1, q.2)

/-- Decode a list of chunks with carried decoder state, returning the text
appended to the buffer per chunk.  The code never calls the decoder's
final flush, so bytes left in the state at the end are dropped. -/
def decodeTexts (st : Utf8State) : List (List Nat) → List JSStr × Utf8State
  | [] => ([], st)
  | c :: cs =>
    let p := utf8Run st c
    let q := decodeTexts p.2 cs
    (p.1 :: q.1, q.2)

/-- The outer read loop of `streamChat` over the per-chunk decoded texts:
append each text to the pending buffer and run the inner scan; once
`streamDone` is set no further chunk is read. -/
def runText (buf : JSStr) : List JSStr → ScanOut
  | [] => ⟨[], buf, false⟩
  | t :: ts =>
    let o := scanLive (buf ++ t)
    if o.sd then o
    else
      let o2 := runText o.buf ts
      ⟨o.evs ++ o2.evs, o2.buf, o2.sd⟩

/-- Observable events of the decode loop of `streamChat`: the chunks are
the byte payloads successfully delivered by `reader.read()`, and `ending`
says whether the next read resolves done (clean close) or throws
(transport failure).  After the sentinel the loop exits without reading
again, so a pending failure is never observed; the final flush runs on
every non-throwing exit, followed by `onDone`; a thrown read reaches the
outer catch, which reports the network error without flushing. -/
def streamEvents (parts : List (List Nat)) (ending : SourceEnd) : List Ev :=
  let o := runText [] (decodeTexts utf8Init parts).1
  if o.sd then o.evs ++ flushEvents o.buf ++ [Ev.done]
  else
    match ending with
    | .clean => o.evs ++ flushEvents o.buf ++ [Ev.done]
    | .failed => o.evs ++ [Ev.error (Json.str errConnMsg)]

/-- The HTTP response as far as `streamChat` observes it: the success
flag, the status code, the parsed JSON body used for error reporting
(`none` when `resp.json()` rejects), whether a readable body stream is
present, and the byte source behind it. -/
structure Resp where
  ok : Bool
  status : Nat
  jsonBody : Option Json
  hasBody : Bool
  chunks : List (List Nat)
  ending : SourceEnd

/-- Status-derived fallback message of the non-success branch. -/
def statusFallback (status : Nat) : JSStr :=
  if status = 429 then msg429
  else if status = 402 then msg402
  else msgConnFailed

/-- The error value surfaced for a non-success response: the body's
`error` member when truthy, the status-derived fallback when absent or
falsy, and the outer-catch network message when reading the member throws
(body JSON is `null`). -/
def errMsgFor (r : Resp) : Json :=
  match getProp (r.jsonBody.getD (Json.obj [])) (str "error") with
  | none => Json.str errConnMsg
  | some .undefined => Json.str (statusFallback r.status)
  | some (.val j) => if jsTruthy j then j else Json.str (statusFallback r.status)

/-- Full observable behavior of `streamChat` from the response on:
non-success status reports one error without touching the body stream; a
missing body reports one error; otherwise the decode loop runs. -/
def streamChatRun (r : Resp) : List Ev :=
  if !r.ok then [Ev.error (errMsgFor r)]
  else if !r.hasBody then [Ev.error (Json.str msgNoBody)]
  else streamEvents r.chunks r.ending

/-- Two buffers are line-equivalent when they are equal except that their
first newline-terminated lines may differ in trailing carriage returns
(the push-back of a failed line re-strips one carriage return each time
the line is rescanned, so live buffers can differ from the raw received
text in exactly this way). -/
def lineEqBuf (b1 b2 : JSStr) : Prop :=
  (splitNL b1 = none ∧ splitNL b2 = none ∧ b1 = b2) ∨
  (∃ l1 l2 r, splitNL b1 = some (l1, r) ∧ splitNL b2 = some (l2, r) ∧
    rstripCR l1 = rstripCR l2)

/-- A buffer is quiescent when rescanning it emits nothing, does not set
`streamDone`, and only renormalizes the head line. -/
def Quiescent (buf : JSStr) : Prop :=
  (scanLive buf).evs = [] ∧ (scanLive buf).sd = false ∧ lineEqBuf (scanLive buf).buf buf

/-! ### Basic lemmas about line splitting and carriage-return stripping -/

theorem splitNL_eq {s l r : JSStr} (h : splitNL s = some (l, r)) :
    s = l ++ '\n' :: r ∧ '\n' ∉ l := by
  induction s generalizing l r with
  | nil => simp [splitNL] at h
  | cons c cs ih =>
    by_cases hc : c = '\n'
    · subst hc
      simp [splitNL] at h
      obtain ⟨hl, hr⟩ := h
      subst hl; subst hr; simp
    · simp only [splitNL, if_neg hc, Option.map_eq_some'] at h
      obtain ⟨⟨l', r'⟩, hs, heq⟩ := h
      injection heq with h1 h2
      subst h2
      obtain ⟨hb, hnl⟩ := ih hs
      subst hb
      refine ⟨by rw [← h1]; rfl, ?_⟩
      rw [← h1]
      intro hmem
      rcases List.mem_cons.mp hmem with h' | h'
      · exact hc h'.symm
      · exact hnl h'

theorem splitNL_of_not_mem {l : JSStr} (r : JSStr) (h : '\n' ∉ l) :
    splitNL (l ++ '\n' :: r) = some (l, r) := by
  induction l with
  | nil => simp [splitNL]
  | cons c cs ih =>
    have hc : c ≠ '\n' := by intro hcc; exact h (hcc ▸ List.mem_cons_self c cs)
    have hm : '\n' ∉ cs := fun hx => h (List.mem_cons_of_mem c hx)
    simp [splitNL, hc, ih hm]

theorem splitNL_append {b t l r : JSStr} (h : splitNL b = some (l, r)) :
    splitNL (b ++ t) = some (l, r ++ t) := by
  obtain ⟨hb, hnl⟩ := splitNL_eq h
  subst hb
  rw [List.append_assoc]
  exact splitNL_of_not_mem (r ++ t) hnl

theorem dropWhile_append_cases (p : Char → Bool) (xs ys : List Char) :
    (xs ++ ys).dropWhile p =
      if (xs.dropWhile p).isEmpty then ys.dropWhile p else xs.dropWhile p ++ ys := by
  induction xs with
  | nil => simp
  | cons c cs ih =>
    by_cases hp : p c
    · simpa [List.dropWhile_cons, hp] using ih
    · simp [List.dropWhile_cons, hp]

theorem dropWhile_replicate_of_pos (p : Char → Bool) (a : Char) (k : Nat) (hp : p a = true) :
    (List.replicate k a).dropWhile p = [] := by
  induction k with
  | zero => rfl
  | succ k ih => simp [List.replicate_succ, List.dropWhile_cons, hp, ih]

theorem dropWhile_replicate_append (p : Char → Bool) (a : Char) (k : Nat) (x : List Char)
    (hp : p a = true) : (List.replicate k a ++ x).dropWhile p = x.dropWhile p := by
  induction k with
  | zero => rfl
  | succ k ih => simp [List.replicate_succ, List.dropWhile_cons, hp, ih]

theorem rstripCR_append_replicate (l : JSStr) (k : Nat) :
    rstripCR (l ++ List.replicate k '\r') = rstripCR l := by
  unfold rstripCR
  rw [List.reverse_append, List.reverse_replicate,
      dropWhile_replicate_append _ _ _ _ (by decide)]

theorem exists_rstripCR_decomp (l : JSStr) :
    ∃ k, l = rstripCR l ++ List.replicate k '\r' := by
  refine ⟨(l.reverse.takeWhile (· == '\r')).length, ?_⟩
  have hsplit := List.takeWhile_append_dropWhile (p := (· == '\r')) (l := l.reverse)
  have hrep : l.reverse.takeWhile (· == '\r') =
      List.replicate (l.reverse.takeWhile (· == '\r')).length '\r' := by
    apply List.eq_replicate_of_mem
    intro b hb
    have := List.mem_takeWhile_imp hb
    simpa [beq_iff_eq] using this
  calc l = l.reverse.reverse := by rw [List.reverse_reverse]
    _ = (l.reverse.takeWhile (· == '\r') ++ l.reverse.dropWhile (· == '\r')).reverse := by
          rw [hsplit]
    _ = rstripCR l ++ (l.reverse.takeWhile (· == '\r')).reverse := by
          rw [List.reverse_append]; rfl
    _ = rstripCR l ++ List.replicate (l.reverse.takeWhile (· == '\r')).length '\r' := by
          rw [hrep, List.reverse_replicate, List.length_replicate]

theorem getLast?_decomp {l : JSStr} {a : Char} (h : l.getLast? = some a) :
    ∃ l', l = l' ++ [a] := by
  rw [List.getLast?_eq_some_iff] at h
  exact h

theorem rstripCR_stripCR (l : JSStr) : rstripCR (stripCR l) = rstripCR l := by
  unfold stripCR
  by_cases h : l.getLast? = some '\r'
  · obtain ⟨l', hl⟩ := getLast?_decomp h
    subst hl
    rw [if_pos h, List.dropLast_concat]
    have : l' ++ ['\r'] = l' ++ List.replicate 1 '\r' := by rfl
    rw [this, rstripCR_append_replicate]
  · rw [if_neg h]

theorem not_mem_stripCR {c : Char} {l : JSStr} (h : c ∉ l) : c ∉ stripCR l := by
  unfold stripCR
  by_cases hg : l.getLast? = some '\r'
  · rw [if_pos hg]
    intro hc
    exact h ((List.dropLast_sublist l).subset hc)
  · rwa [if_neg hg]

theorem startsWithL_iff (p : JSStr) : ∀ s : JSStr, startsWithL s p = true ↔ ∃ m, s = p ++ m := by
  induction p with
  | nil =>
    intro s
    constructor
    · intro _; exact ⟨s, rfl⟩
    · intro _; cases s <;> rfl
  | cons pc ps ih =>
    intro s
    cases s with
    | nil =>
      simp only [startsWithL]
      constructor
      · intro h; exact absurd h (by simp)
      · rintro ⟨m, hm⟩; simp at hm
    | cons sc ss =>
      simp only [startsWithL, Bool.and_eq_true, beq_iff_eq]
      rw [ih ss]
      constructor
      · rintro ⟨hsc, m, hm⟩; exact ⟨m, by rw [hsc, hm]; rfl⟩
      · rintro ⟨m, hm⟩
        rw [List.cons_append] at hm
        injection hm with h1 h2
        exact ⟨h1, m, h2⟩

theorem startsWithL_append_replicate {p : JSStr} (hp : '\r' ∉ p) (l : JSStr) (k : Nat) :
    startsWithL (l ++ List.replicate k '\r') p = startsWithL l p := by
  induction p generalizing l with
  | nil => simp [startsWithL]
  | cons pc ps ih =>
    have hpc : pc ≠ '\r' := by intro h; exact hp (h ▸ List.mem_cons_self pc ps)
    have hps : '\r' ∉ ps := fun hx => hp (List.mem_cons_of_mem pc hx)
    cases l with
    | nil =>
      cases k with
      | zero => rfl
      | succ k =>
        have hne : ('\r' == pc) = false := by
          simp only [beq_eq_false_iff_ne, ne_eq]
          intro h; exact hpc h.symm
        simp [List.replicate_succ, startsWithL, hne]
    | cons c cs =>
      simp only [List.cons_append, startsWithL, List.append_eq]
      rw [ih hps cs]

/-! ### Trim and line-classification invariance under trailing carriage returns -/

theorem trimEnd_append_replicateCR (x : JSStr) (k : Nat) :
    trimEnd (x ++ List.replicate k '\r') = trimEnd x := by
  unfold trimEnd
  rw [List.reverse_append, List.reverse_replicate,
      dropWhile_replicate_append _ _ _ _ (by decide)]

theorem jsTrim_append_replicateCR (y : JSStr) (k : Nat) :
    jsTrim (y ++ List.replicate k '\r') = jsTrim y := by
  unfold jsTrim trimStart
  rw [dropWhile_append_cases]
  by_cases hy : (y.dropWhile jsWsB).isEmpty
  · rw [if_pos hy, dropWhile_replicate_of_pos _ _ _ (by decide)]
    rw [List.isEmpty_iff] at hy
    rw [hy]
  · rw [if_neg hy, trimEnd_append_replicateCR]

theorem jsTrim_nil_iff (s : JSStr) : (jsTrim s).isEmpty = true ↔ ∀ c ∈ s, jsWsB c = true := by
  unfold jsTrim trimEnd trimStart
  rw [List.isEmpty_iff, List.reverse_eq_nil_iff, List.dropWhile_eq_nil_iff]
  constructor
  · intro h c hc
    by_cases hw : jsWsB c
    · exact hw
    · exfalso
      -- c survives the leading strip, hence appears in the reversed remainder
      have hsplit := List.takeWhile_append_dropWhile (p := jsWsB) (l := s)
      have hc' : c ∈ s.takeWhile jsWsB ∨ c ∈ s.dropWhile jsWsB := by
        rw [← List.mem_append, hsplit]; exact hc
      rcases hc' with h' | h'
      · exact hw (List.mem_takeWhile_imp h')
      · exact hw (h c (List.mem_reverse.mpr h'))
  · intro h c hc
    exact h c ((List.dropWhile_sublist jsWsB).subset (List.mem_reverse.mp hc))

theorem drop_dataTag_append (m : JSStr) (x : JSStr) :
    (dataTag ++ m ++ x).drop 6 = m ++ x := by
  have h6 : dataTag.length = 6 := by decide
  rw [List.append_assoc, ← h6, List.drop_left]

theorem lineCore_append_replicate (l : JSStr) (k : Nat) :
    lineCore (l ++ List.replicate k '\r') = lineCore l := by
  unfold lineCore
  rw [startsWithL_append_replicate (by decide) l k,
      jsTrim_append_replicateCR l k,
      startsWithL_append_replicate (by decide) l k]
  cases hcb : (startsWithL l colonTok || (jsTrim l).isEmpty) with
  | true => rfl
  | false =>
    cases hd : startsWithL l dataTag with
    | false => rfl
    | true =>
      obtain ⟨m, hm⟩ := (startsWithL_iff dataTag l).mp hd
      subst hm
      have hdrop1 : (dataTag ++ m ++ List.replicate k '\r').drop 6 = m ++ List.replicate k '\r' :=
        drop_dataTag_append m (List.replicate k '\r')
      have hdrop2 : (dataTag ++ m).drop 6 = m := by
        have h := drop_dataTag_append m ([] : JSStr)
        simpa using h
      simp only [List.append_assoc, dataTag] at hdrop1 hdrop2 ⊢
      rw [hdrop1, hdrop2, jsTrim_append_replicateCR]

theorem lineStep_congr {l1 l2 : JSStr} (h : rstripCR l1 = rstripCR l2) :
    lineStep l1 = lineStep l2 := by
  unfold lineStep
  obtain ⟨k1, e1⟩ := exists_rstripCR_decomp (stripCR l1)
  obtain ⟨k2, e2⟩ := exists_rstripCR_decomp (stripCR l2)
  rw [e1, e2, lineCore_append_replicate, lineCore_append_replicate,
      rstripCR_stripCR, rstripCR_stripCR, h]

theorem lineStep_stripCR (l : JSStr) : lineStep (stripCR l) = lineStep l :=
  lineStep_congr (rstripCR_stripCR l)

theorem rstripCR_replicate (k : Nat) : rstripCR (List.replicate k '\r') = [] := by
  have h : ([] : JSStr) ++ List.replicate k '\r' = List.replicate k '\r' := by simp
  rw [← h, rstripCR_append_replicate]
  rfl

theorem lineStep_replicateCR (k : Nat) : lineStep (List.replicate k '\r') = .skip := by
  have h : lineStep (List.replicate k '\r') = lineStep [] :=
    lineStep_congr (by rw [rstripCR_replicate]; rfl)
  rw [h]
  rfl

theorem tryDelta_eq_some {s : JSStr} {es : List Ev} (h : tryDelta s = some es) :
    es = [] ∨ ∃ j, es = [Ev.delta j] := by
  unfold tryDelta at h
  cases hp : jsonParse s with
  | none => rw [hp] at h; simp at h
  | some parsed =>
    rw [hp] at h
    simp only [Option.map_eq_some'] at h
    obtain ⟨v, hv, hev⟩ := h
    subst hev
    cases v with
    | undefined => left; rfl
    | val j =>
      by_cases ht : jsTruthy j
      · right; refine ⟨j, ?_⟩; simp [deltaEvents, ht]
      · left; simp [deltaEvents, ht]

theorem lineStep_emit_deltas {l : JSStr} {es : List Ev} (h : lineStep l = .emit es) :
    ∀ e ∈ es, ∃ j, e = Ev.delta j := by
  unfold lineStep lineCore at h
  intro e he
  cases hcb : (startsWithL (stripCR l) colonTok || (jsTrim (stripCR l)).isEmpty) with
  | true => rw [hcb] at h; simp at h
  | false =>
    rw [hcb] at h
    cases hd : startsWithL (stripCR l) dataTag with
    | false => rw [hd] at h; simp at h
    | true =>
      rw [hd] at h
      simp only [Bool.not_true, if_false] at h
      by_cases hdn : jsTrim ((stripCR l).drop 6) = doneTok
      · rw [if_pos hdn] at h; exact absurd h (by simp)
      · rw [if_neg hdn] at h
        cases htr : tryDelta (jsTrim ((stripCR l).drop 6)) with
        | none => rw [htr] at h; exact absurd h (by simp)
        | some es' =>
          rw [htr] at h
          have hes : es' = es := by
            cases h; rfl
          subst hes
          rcases tryDelta_eq_some htr with h0 | ⟨j, hj⟩
          · subst h0; simp at he
          · subst hj
            simp only [List.mem_singleton] at he
            exact ⟨j, he⟩

/-! ### Unfolding lemmas for the fuelled scan loop -/

theorem scanLiveF_fuel : ∀ n m b, b.length < n → b.length < m → scanLiveF n b = scanLiveF m b := by
  intro n
  induction n with
  | zero => intro m b h _; exact absurd h (Nat.not_lt_zero _)
  | succ n ih =>
    intro m b hn hm
    cases m with
    | zero => exact absurd hm (Nat.not_lt_zero _)
    | succ m =>
      simp only [scanLiveF]
      cases hs : splitNL b with
      | none => simp only [hs]
      | some lr =>
        obtain ⟨l0, rest⟩ := lr
        obtain ⟨hb, _⟩ := splitNL_eq hs
        have hlen : rest.length < b.length := by
          rw [hb, List.length_append]; simp; omega
        have hr : rest.length < n := by omega
        have hrm : rest.length < m := by omega
        simp only [hs]
        cases hls : lineStep l0 with
        | skip => simp only [hls]; exact ih m rest hr hrm
        | sentinel => simp only [hls]
        | emit es => simp only [hls]; rw [ih m rest hr hrm]
        | fail => simp only [hls]

theorem scanLive_none {b : JSStr} (h : splitNL b = none) : scanLive b = ⟨[], b, false⟩ := by
  unfold scanLive
  simp only [scanLiveF, h]

theorem scanLiveF_succ_some (n : Nat) {b l0 rest : JSStr} (h : splitNL b = some (l0, rest)) :
    scanLiveF (n+1) b =
      match lineStep l0 with
      | .skip => scanLiveF n rest
      | .sentinel => ⟨[], rest, true⟩
      | .emit es => ⟨es ++ (scanLiveF n rest).evs, (scanLiveF n rest).buf, (scanLiveF n rest).sd⟩
      | .fail => ⟨[], stripCR l0 ++ '\n' :: rest, false⟩ := by
  simp only [scanLiveF, h]

theorem splitNL_length {b l0 rest : JSStr} (h : splitNL b = some (l0, rest)) :
    rest.length < b.length := by
  rw [(splitNL_eq h).1, List.length_append]
  simp
  omega

theorem scanLive_skip {b l0 rest : JSStr} (h : splitNL b = some (l0, rest))
    (hc : lineStep l0 = .skip) : scanLive b = scanLive rest := by
  have hlen := splitNL_length h
  unfold scanLive
  rw [scanLiveF_succ_some b.length h, hc]
  exact scanLiveF_fuel b.length (rest.length + 1) rest (by omega) (by omega)

theorem scanLive_sentinel {b l0 rest : JSStr} (h : splitNL b = some (l0, rest))
    (hc : lineStep l0 = .sentinel) : scanLive b = ⟨[], rest, true⟩ := by
  unfold scanLive
  rw [scanLiveF_succ_some b.length h, hc]

theorem scanLive_emit {b l0 rest : JSStr} {es : List Ev} (h : splitNL b = some (l0, rest))
    (hc : lineStep l0 = .emit es) :
    scanLive b = ⟨es ++ (scanLive rest).evs, (scanLive rest).buf, (scanLive rest).sd⟩ := by
  have hlen := splitNL_length h
  unfold scanLive
  rw [scanLiveF_succ_some b.length h, hc]
  show (⟨es ++ (scanLiveF b.length rest).evs, (scanLiveF b.length rest).buf,
          (scanLiveF b.length rest).sd⟩ : ScanOut) = _
  rw [scanLiveF_fuel b.length (rest.length + 1) rest (by omega) (by omega)]

theorem scanLive_fail {b l0 rest : JSStr} (h : splitNL b = some (l0, rest))
    (hc : lineStep l0 = .fail) :
    scanLive b = ⟨[], stripCR l0 ++ '\n' :: rest, false⟩ := by
  unfold scanLive
  rw [scanLiveF_succ_some b.length h, hc]

/-! ### Properties of buffer line-equivalence and the scan loop -/

theorem lineEqBuf_refl (b : JSStr) : lineEqBuf b b := by
  cases h : splitNL b with
  | none => exact Or.inl ⟨h, h, rfl⟩
  | some lr => exact Or.inr ⟨lr.1, lr.1, lr.2, by rw [h], by rw [h], rfl⟩

theorem lineEqBuf_symm {b1 b2 : JSStr} (h : lineEqBuf b1 b2) : lineEqBuf b2 b1 := by
  rcases h with ⟨h1, h2, he⟩ | ⟨l1, l2, r, h1, h2, hl⟩
  · exact Or.inl ⟨h2, h1, he.symm⟩
  · exact Or.inr ⟨l2, l1, r, h2, h1, hl.symm⟩

theorem lineEqBuf_trans {b1 b2 b3 : JSStr} (h : lineEqBuf b1 b2) (h' : lineEqBuf b2 b3) :
    lineEqBuf b1 b3 := by
  rcases h with ⟨h1, h2, he⟩ | ⟨l1, l2, r, h1, h2, hl⟩
  · subst he; exact h'
  · rcases h' with ⟨h1', _, _⟩ | ⟨l2', l3, r', h2', h3', hl'⟩
    · rw [h1'] at h2; exact absurd h2 (by simp)
    · rw [h2'] at h2
      injection h2 with h2
      injection h2 with hll hrr
      refine Or.inr ⟨l1, l3, r, h1, ?_, ?_⟩
      · rw [h3', hrr]
      · rw [hl, ← hll, hl']

theorem lineEqBuf_append {b1 b2 : JSStr} (t : JSStr) (h : lineEqBuf b1 b2) :
    lineEqBuf (b1 ++ t) (b2 ++ t) := by
  rcases h with ⟨_, _, he⟩ | ⟨l1, l2, r, h1, h2, hl⟩
  · subst he; exact lineEqBuf_refl _
  · exact Or.inr ⟨l1, l2, r ++ t, splitNL_append h1, splitNL_append h2, hl⟩

theorem scan_congr {b1 b2 : JSStr} (h : lineEqBuf b1 b2) :
    (scanLive b1).evs = (scanLive b2).evs ∧ (scanLive b1).sd = (scanLive b2).sd ∧
    lineEqBuf (scanLive b1).buf (scanLive b2).buf := by
  rcases h with ⟨_, _, he⟩ | ⟨l1, l2, r, h1, h2, hl⟩
  · subst he; exact ⟨rfl, rfl, lineEqBuf_refl _⟩
  · have hstep : lineStep l1 = lineStep l2 := lineStep_congr hl
    cases hc : lineStep l1 with
    | skip =>
      rw [scanLive_skip h1 hc, scanLive_skip h2 (hstep.symm.trans hc)]
      exact ⟨rfl, rfl, lineEqBuf_refl _⟩
    | sentinel =>
      rw [scanLive_sentinel h1 hc, scanLive_sentinel h2 (hstep.symm.trans hc)]
      exact ⟨rfl, rfl, lineEqBuf_refl _⟩
    | emit es =>
      rw [scanLive_emit h1 hc, scanLive_emit h2 (hstep.symm.trans hc)]
      exact ⟨rfl, rfl, lineEqBuf_refl _⟩
    | fail =>
      rw [scanLive_fail h1 hc, scanLive_fail h2 (hstep.symm.trans hc)]
      refine ⟨rfl, rfl, Or.inr ⟨stripCR l1, stripCR l2, r, ?_, ?_, ?_⟩⟩
      · exact splitNL_of_not_mem r (not_mem_stripCR (splitNL_eq h1).2)
      · exact splitNL_of_not_mem r (not_mem_stripCR (splitNL_eq h2).2)
      · rw [rstripCR_stripCR, rstripCR_stripCR, hl]

theorem scan_quiescent_fuel : ∀ n b, b.length < n → (scanLive b).sd = false →
    Quiescent (scanLive b).buf := by
  intro n
  induction n with
  | zero => intro b h _; exact absurd h (Nat.not_lt_zero _)
  | succ n ih =>
    intro b hlen hsd
    cases hs : splitNL b with
    | none =>
      rw [scanLive_none hs]
      show Quiescent b
      exact ⟨by rw [scanLive_none hs], by rw [scanLive_none hs],
             by rw [scanLive_none hs]; exact lineEqBuf_refl b⟩
    | some lr =>
      obtain ⟨l0, rest⟩ := lr
      have hrl : rest.length < n := by have := splitNL_length hs; omega
      cases hc : lineStep l0 with
      | skip =>
        rw [scanLive_skip hs hc] at hsd ⊢
        exact ih rest hrl hsd
      | sentinel =>
        rw [scanLive_sentinel hs hc] at hsd
        exact absurd hsd (by simp)
      | emit es =>
        rw [scanLive_emit hs hc] at hsd ⊢
        exact ih rest hrl hsd
      | fail =>
        rw [scanLive_fail hs hc]
        show Quiescent (stripCR l0 ++ '\n' :: rest)
        have hnl : '\n' ∉ stripCR l0 := not_mem_stripCR (splitNL_eq hs).2
        have hsplit : splitNL (stripCR l0 ++ '\n' :: rest) = some (stripCR l0, rest) :=
          splitNL_of_not_mem rest hnl
        have hstep : lineStep (stripCR l0) = .fail := (lineStep_stripCR l0).trans hc
        refine ⟨?_, ?_, ?_⟩
        · rw [scanLive_fail hsplit hstep]
        · rw [scanLive_fail hsplit hstep]
        · rw [scanLive_fail hsplit hstep]
          refine Or.inr ⟨stripCR (stripCR l0), stripCR l0, rest, ?_, hsplit, ?_⟩
          · exact splitNL_of_not_mem rest (not_mem_stripCR hnl)
          · rw [rstripCR_stripCR]

theorem scan_quiescent {b : JSStr} (h : (scanLive b).sd = false) :
    Quiescent (scanLive b).buf :=
  scan_quiescent_fuel (b.length + 1) b (by omega) h

theorem quiescent_nil : Quiescent [] := by
  have h : splitNL ([] : JSStr) = none := rfl
  exact ⟨by rw [scanLive_none h], by rw [scanLive_none h],
         by rw [scanLive_none h]; exact lineEqBuf_refl []⟩

theorem scan_append_sd_fuel : ∀ n b t, b.length < n → (scanLive b).sd = true →
    scanLive (b ++ t) = ⟨(scanLive b).evs, (scanLive b).buf ++ t, true⟩ := by
  intro n
  induction n with
  | zero => intro b t h _; exact absurd h (Nat.not_lt_zero _)
  | succ n ih =>
    intro b t hlen hsd
    cases hs : splitNL b with
    | none =>
      rw [scanLive_none hs] at hsd
      exact absurd hsd (by simp)
    | some lr =>
      obtain ⟨l0, rest⟩ := lr
      have hrl : rest.length < n := by have := splitNL_length hs; omega
      have hsplit' : splitNL (b ++ t) = some (l0, rest ++ t) := splitNL_append hs
      cases hc : lineStep l0 with
      | skip =>
        rw [scanLive_skip hs hc] at hsd ⊢
        rw [scanLive_skip hsplit' hc]
        exact ih rest t hrl hsd
      | sentinel =>
        rw [scanLive_sentinel hs hc]
        rw [scanLive_sentinel hsplit' hc]
      | emit es =>
        rw [scanLive_emit hs hc] at hsd ⊢
        rw [scanLive_emit hsplit' hc]
        rw [ih rest t hrl hsd]
      | fail =>
        rw [scanLive_fail hs hc] at hsd
        exact absurd hsd (by simp)

theorem scan_append_fuel : ∀ n b t, b.length < n → (scanLive b).sd = false →
    ∃ r, scanLive (b ++ t) =
        ⟨(scanLive b).evs ++ (scanLive ((scanLive b).buf ++ t)).evs, r,
          (scanLive ((scanLive b).buf ++ t)).sd⟩ ∧
      ((scanLive ((scanLive b).buf ++ t)).sd = false →
        lineEqBuf r (scanLive ((scanLive b).buf ++ t)).buf) ∧
      ((scanLive ((scanLive b).buf ++ t)).sd = true →
        r = (scanLive ((scanLive b).buf ++ t)).buf) := by
  intro n
  induction n with
  | zero => intro b t h _; exact absurd h (Nat.not_lt_zero _)
  | succ n ih =>
    intro b t hlen hsd
    cases hs : splitNL b with
    | none =>
      rw [scanLive_none hs]
      refine ⟨(scanLive (b ++ t)).buf, ?_, fun _ => lineEqBuf_refl _, fun _ => rfl⟩
      show scanLive (b ++ t) =
        ⟨[] ++ (scanLive (b ++ t)).evs, (scanLive (b ++ t)).buf, (scanLive (b ++ t)).sd⟩
      rw [List.nil_append]
    | some lr =>
      obtain ⟨l0, rest⟩ := lr
      have hrl : rest.length < n := by have := splitNL_length hs; omega
      have hsplit' : splitNL (b ++ t) = some (l0, rest ++ t) := splitNL_append hs
      cases hc : lineStep l0 with
      | skip =>
        rw [scanLive_skip hs hc] at hsd ⊢
        rw [scanLive_skip hsplit' hc]
        exact ih rest t hrl hsd
      | sentinel =>
        rw [scanLive_sentinel hs hc] at hsd
        exact absurd hsd (by simp)
      | emit es =>
        rw [scanLive_emit hs hc] at hsd ⊢
        rw [scanLive_emit hsplit' hc]
        obtain ⟨r, hmain, hf, ht⟩ := ih rest t hrl hsd
        refine ⟨r, ?_, hf, ht⟩
        rw [hmain]
        show (⟨es ++ ((scanLive rest).evs ++ (scanLive ((scanLive rest).buf ++ t)).evs), r,
               (scanLive ((scanLive rest).buf ++ t)).sd⟩ : ScanOut) = _
        rw [← List.append_assoc]
      | fail =>
        rw [scanLive_fail hs hc] at hsd ⊢
        rw [scanLive_fail hsplit' hc]
        have hnl : '\n' ∉ stripCR l0 := not_mem_stripCR (splitNL_eq hs).2
        have hins : splitNL (stripCR l0 ++ '\n' :: (rest ++ t)) = some (stripCR l0, rest ++ t) :=
          splitNL_of_not_mem _ hnl
        have hstep2 : lineStep (stripCR l0) = .fail := (lineStep_stripCR l0).trans hc
        have hassoc : (stripCR l0 ++ '\n' :: rest) ++ t = stripCR l0 ++ '\n' :: (rest ++ t) := by
          rw [List.append_assoc]; rfl
        have hinner : scanLive ((stripCR l0 ++ '\n' :: rest) ++ t) =
            ⟨[], stripCR (stripCR l0) ++ '\n' :: (rest ++ t), false⟩ := by
          rw [hassoc]; exact scanLive_fail hins hstep2
        refine ⟨stripCR l0 ++ '\n' :: (rest ++ t), ?_, ?_, ?_⟩
        · rw [hinner]; rfl
        · intro _
          rw [hinner]
          refine Or.inr ⟨stripCR l0, stripCR (stripCR l0), rest ++ t, hins, ?_, ?_⟩
          · exact splitNL_of_not_mem _ (not_mem_stripCR hnl)
          · simp [rstripCR_stripCR]
        · intro hcontra
          rw [hinner] at hcontra
          exact absurd hcontra (by simp)

theorem scan_evs_delta_fuel : ∀ n b, b.length < n →
    ∀ e ∈ (scanLive b).evs, ∃ j, e = Ev.delta j := by
  intro n
  induction n with
  | zero => intro b h; exact absurd h (Nat.not_lt_zero _)
  | succ n ih =>
    intro b hlen e he
    cases hs : splitNL b with
    | none => rw [scanLive_none hs] at he; simp at he
    | some lr =>
      obtain ⟨l0, rest⟩ := lr
      have hrl : rest.length < n := by have := splitNL_length hs; omega
      cases hc : lineStep l0 with
      | skip =>
        rw [scanLive_skip hs hc] at he
        exact ih rest hrl e he
      | sentinel => rw [scanLive_sentinel hs hc] at he; simp at he
      | emit es =>
        rw [scanLive_emit hs hc] at he
        rcases List.mem_append.mp he with h' | h'
        · exact lineStep_emit_deltas hc e h'
        · exact ih rest hrl e h'
      | fail => rw [scanLive_fail hs hc] at he; simp at he

theorem scan_evs_delta {b : JSStr} : ∀ e ∈ (scanLive b).evs, ∃ j, e = Ev.delta j :=
  scan_evs_delta_fuel (b.length + 1) b (by omega)

theorem scan_buf_suffix_fuel : ∀ n b, b.length < n →
    ∃ p s, b = p ++ s ∧ lineEqBuf (scanLive b).buf s ∧
      (p = [] ∨ ∃ q, p = q ++ ['\n']) := by
  intro n
  induction n with
  | zero => intro b h; exact absurd h (Nat.not_lt_zero _)
  | succ n ih =>
    intro b hlen
    cases hs : splitNL b with
    | none =>
      rw [scanLive_none hs]
      exact ⟨[], b, rfl, lineEqBuf_refl b, Or.inl rfl⟩
    | some lr =>
      obtain ⟨l0, rest⟩ := lr
      have hb := (splitNL_eq hs).1
      have hrl : rest.length < n := by have := splitNL_length hs; omega
      cases hc : lineStep l0 with
      | skip =>
        rw [scanLive_skip hs hc]
        obtain ⟨p', s', hps, hbuf, hbd⟩ := ih rest hrl
        refine ⟨l0 ++ '\n' :: p', s', ?_, hbuf, ?_⟩
        · rw [hb, hps, List.append_assoc]; rfl
        · rcases hbd with h0 | ⟨q', hq⟩
          · subst h0; exact Or.inr ⟨l0, rfl⟩
          · refine Or.inr ⟨l0 ++ '\n' :: q', ?_⟩
            rw [hq, List.append_assoc]; rfl
      | sentinel =>
        rw [scanLive_sentinel hs hc]
        refine ⟨l0 ++ ['\n'], rest, ?_, lineEqBuf_refl rest, Or.inr ⟨l0, rfl⟩⟩
        rw [hb, List.append_assoc]; rfl
      | emit es =>
        rw [scanLive_emit hs hc]
        obtain ⟨p', s', hps, hbuf, hbd⟩ := ih rest hrl
        refine ⟨l0 ++ '\n' :: p', s', ?_, hbuf, ?_⟩
        · rw [hb, hps, List.append_assoc]; rfl
        · rcases hbd with h0 | ⟨q', hq⟩
          · subst h0; exact Or.inr ⟨l0, rfl⟩
          · refine Or.inr ⟨l0 ++ '\n' :: q', ?_⟩
            rw [hq, List.append_assoc]; rfl
      | fail =>
        rw [scanLive_fail hs hc]
        refine ⟨[], b, rfl, ?_, Or.inl rfl⟩
        refine Or.inr ⟨stripCR l0, l0, rest, ?_, ?_, rstripCR_stripCR l0⟩
        · exact splitNL_of_not_mem rest (not_mem_stripCR (splitNL_eq hs).2)
        · exact hs

theorem scan_buf_suffix (b : JSStr) :
    ∃ p s, b = p ++ s ∧ lineEqBuf (scanLive b).buf s ∧
      (p = [] ∨ ∃ q, p = q ++ ['\n']) :=
  scan_buf_suffix_fuel (b.length + 1) b (by omega)

/-! ### The outer loop over decoded chunk texts versus a single scan -/

theorem runText_single : ∀ (ts : List JSStr) (buf : JSStr), Quiescent buf →
    (runText buf ts).evs = (scanLive (buf ++ ts.flatten)).evs ∧
    (runText buf ts).sd = (scanLive (buf ++ ts.flatten)).sd ∧
    ((scanLive (buf ++ ts.flatten)).sd = false →
      lineEqBuf (runText buf ts).buf (scanLive (buf ++ ts.flatten)).buf) ∧
    ((scanLive (buf ++ ts.flatten)).sd = true →
      ∃ u, (scanLive (buf ++ ts.flatten)).buf = (runText buf ts).buf ++ u) := by
  intro ts
  induction ts with
  | nil =>
    intro buf hq
    obtain ⟨he, hsd, hbuf⟩ := hq
    simp only [List.flatten_nil, List.append_nil, runText]
    refine ⟨he.symm, hsd.symm, fun _ => lineEqBuf_symm hbuf, fun hcontra => ?_⟩
    rw [hsd] at hcontra
    exact absurd hcontra (by simp)
  | cons t ts ih =>
    intro buf hq
    simp only [List.flatten_cons, runText]
    have hassoc : buf ++ (t ++ ts.flatten) = (buf ++ t) ++ ts.flatten := by
      rw [List.append_assoc]
    rw [hassoc]
    cases hsd1 : (scanLive (buf ++ t)).sd with
    | true =>
      simp only [hsd1, if_true]
      have hbig := scan_append_sd_fuel ((buf ++ t).length + 1) (buf ++ t) ts.flatten
        (by omega) hsd1
      rw [hbig]
      exact ⟨rfl, rfl, fun hcontra => absurd hcontra (by simp),
             fun _ => ⟨ts.flatten, rfl⟩⟩
    | false =>
      simp only [Bool.false_eq_true, if_false]
      obtain ⟨r, hmain, hf, ht⟩ := scan_append_fuel ((buf ++ t).length + 1) (buf ++ t)
        ts.flatten (by omega) hsd1
      have hqb : Quiescent (scanLive (buf ++ t)).buf := scan_quiescent hsd1
      obtain ⟨ihe, ihsd, ihf, iht⟩ := ih (scanLive (buf ++ t)).buf hqb
      rw [hmain]
      refine ⟨?_, ?_, ?_, ?_⟩
      · show (scanLive (buf ++ t)).evs ++ (runText (scanLive (buf ++ t)).buf ts).evs = _
        rw [ihe]
      · exact ihsd
      · intro hsd2
        exact lineEqBuf_trans (ihf hsd2) (lineEqBuf_symm (hf hsd2))
      · intro hsd2
        obtain ⟨u, hu⟩ := iht hsd2
        exact ⟨u, (ht hsd2).trans hu⟩

/-! ### Final-flush lemmas -/

theorem splitAllF_fuel : ∀ n m s, s.length < n → s.length < m →
    splitAllF n s = splitAllF m s := by
  intro n
  induction n with
  | zero => intro m s h _; exact absurd h (Nat.not_lt_zero _)
  | succ n ih =>
    intro m s hn hm
    cases m with
    | zero => exact absurd hm (Nat.not_lt_zero _)
    | succ m =>
      simp only [splitAllF]
      cases hs : splitNL s with
      | none => simp only [hs]
      | some lr =>
        obtain ⟨l, r⟩ := lr
        have := splitNL_length hs
        simp only [hs]
        rw [ih m r (by omega) (by omega)]

theorem splitAllNL_none {s : JSStr} (h : splitNL s = none) : splitAllNL s = [s] := by
  unfold splitAllNL
  simp only [splitAllF, h]

theorem splitAllF_succ (n : Nat) {s l r : JSStr} (h : splitNL s = some (l, r)) :
    splitAllF (n+1) s = l :: splitAllF n r := by
  simp only [splitAllF, h]

theorem splitAllNL_cons {s l r : JSStr} (h : splitNL s = some (l, r)) :
    splitAllNL s = l :: splitAllNL r := by
  have hlen := splitNL_length h
  unfold splitAllNL
  rw [splitAllF_succ s.length h,
      splitAllF_fuel s.length (r.length + 1) r (by omega) (by omega)]

theorem flushLine_skipclass {l : JSStr} (h : lineStep l = .skip) : flushLine l = [] := by
  unfold flushLine
  by_cases he : l.isEmpty
  · rw [if_pos he]
  · rw [if_neg he, h]

theorem flushLine_congr {l1 l2 : JSStr} (h : rstripCR l1 = rstripCR l2) :
    flushLine l1 = flushLine l2 := by
  have hnil : rstripCR ([] : JSStr) = [] := rfl
  by_cases h1 : l1 = []
  · subst h1
    obtain ⟨k, hk⟩ := exists_rstripCR_decomp l2
    rw [← h, hnil, List.nil_append] at hk
    rw [hk, flushLine_skipclass (lineStep_replicateCR k)]
    rfl
  · by_cases h2 : l2 = []
    · subst h2
      obtain ⟨k, hk⟩ := exists_rstripCR_decomp l1
      rw [h, hnil, List.nil_append] at hk
      rw [hk, flushLine_skipclass (lineStep_replicateCR k)]
      rfl
    · unfold flushLine
      rw [if_neg (by simpa [List.isEmpty_iff] using h1),
          if_neg (by simpa [List.isEmpty_iff] using h2), lineStep_congr h]

theorem bool_eq_of_iff {a b : Bool} (h : a = true ↔ b = true) : a = b := by
  cases a <;> cases b <;> simp_all

theorem allws_iff (base r : JSStr) (k : Nat) :
    ((jsTrim ((base ++ List.replicate k '\r') ++ '\n' :: r)).isEmpty = true) ↔
    ((∀ c ∈ base, jsWsB c = true) ∧ ∀ c ∈ r, jsWsB c = true) := by
  rw [jsTrim_nil_iff]
  constructor
  · intro hall
    refine ⟨fun c hc => hall c ?_, fun c hc => hall c ?_⟩
    · simp [hc]
    · simp [hc]
  · rintro ⟨ha, hb⟩ c hc
    rcases List.mem_append.mp hc with hc' | hc'
    · rcases List.mem_append.mp hc' with hc'' | hc''
      · exact ha c hc''
      · rw [List.eq_of_mem_replicate hc'']; decide
    · rcases List.mem_cons.mp hc' with hc'' | hc''
      · subst hc''; decide
      · exact hb c hc''

theorem flush_congr {b1 b2 : JSStr} (h : lineEqBuf b1 b2) :
    flushEvents b1 = flushEvents b2 := by
  rcases h with ⟨_, _, he⟩ | ⟨l1, l2, r, h1, h2, hl⟩
  · subst he; rfl
  · have hb1 : b1 = l1 ++ '\n' :: r := (splitNL_eq h1).1
    have hb2 : b2 = l2 ++ '\n' :: r := (splitNL_eq h2).1
    obtain ⟨k1, e1⟩ := exists_rstripCR_decomp l1
    obtain ⟨k2, e2⟩ := exists_rstripCR_decomp l2
    rw [← hl] at e2
    have hguard : (jsTrim b1).isEmpty = (jsTrim b2).isEmpty := by
      apply bool_eq_of_iff
      rw [hb1, hb2, e1, e2]
      exact (allws_iff (rstripCR l1) r k1).trans (allws_iff (rstripCR l1) r k2).symm
    unfold flushEvents
    rw [splitAllNL_cons h1, splitAllNL_cons h2, hguard]
    cases hg : (jsTrim b2).isEmpty with
    | true => simp
    | false =>
      simp only [Bool.false_eq_true, if_false, List.map_cons, List.flatten_cons]
      rw [flushLine_congr hl]

theorem flushLine_delta {raw : JSStr} : ∀ e ∈ flushLine raw, ∃ j, e = Ev.delta j := by
  unfold flushLine
  intro e he
  by_cases h : raw.isEmpty
  · rw [if_pos h] at he; simp at he
  · rw [if_neg h] at he
    cases hc : lineStep raw with
    | emit es => rw [hc] at he; exact lineStep_emit_deltas hc e he
    | skip => rw [hc] at he; simp at he
    | sentinel => rw [hc] at he; simp at he
    | fail => rw [hc] at he; simp at he

theorem flush_evs_delta {b : JSStr} : ∀ e ∈ flushEvents b, ∃ j, e = Ev.delta j := by
  unfold flushEvents
  intro e he
  by_cases h : (jsTrim b).isEmpty
  · rw [if_pos h] at he; simp at he
  · rw [if_neg h] at he
    rw [List.mem_flatten] at he
    obtain ⟨l, hl, hel⟩ := he
    rw [List.mem_map] at hl
    obtain ⟨seg, _, hseg⟩ := hl
    subst hseg
    exact flushLine_delta e hel

/-! ### UTF-8 decoder composition -/

theorem utf8Run_append (st : Utf8State) (b1 b2 : List Nat) :
    utf8Run st (b1 ++ b2) =
      ((utf8Run st b1).1 ++ (utf8Run (utf8Run st b1).2 b2).1,
       (utf8Run (utf8Run st b1).2 b2).2) := by
  induction b1 generalizing st with
  | nil => simp [utf8Run]
  | cons b bs ih => simp [utf8Run, ih, List.append_assoc]

theorem decodeTexts_flatten (st : Utf8State) (parts : List (List Nat)) :
    (decodeTexts st parts).1.flatten = (utf8Run st parts.flatten).1 := by
  induction parts generalizing st with
  | nil => rfl
  | cons c cs ih =>
    simp only [decodeTexts, List.flatten_cons, List.flatten, utf8Run_append]
    rw [ih]

theorem decodeTexts_append (st : Utf8State) (p1 p2 : List (List Nat)) :
    decodeTexts st (p1 ++ p2) =
      ((decodeTexts st p1).1 ++ (decodeTexts (decodeTexts st p1).2 p2).1,
       (decodeTexts (decodeTexts st p1).2 p2).2) := by
  induction p1 generalizing st with
  | nil => simp [decodeTexts]
  | cons c cs ih => simp [decodeTexts, ih]

/-! ### Outer-loop lemmas -/

theorem runText_cons (buf t : JSStr) (ts : List JSStr) :
    runText buf (t :: ts) =
      if (scanLive (buf ++ t)).sd then scanLive (buf ++ t)
      else ⟨(scanLive (buf ++ t)).evs ++ (runText (scanLive (buf ++ t)).buf ts).evs,
            (runText (scanLive (buf ++ t)).buf ts).buf,
            (runText (scanLive (buf ++ t)).buf ts).sd⟩ := rfl

theorem runText_append_sd (ts2 : List JSStr) : ∀ (ts1 : List JSStr) (buf : JSStr),
    (runText buf ts1).sd = true → runText buf (ts1 ++ ts2) = runText buf ts1 := by
  intro ts1
  induction ts1 with
  | nil => intro buf h; simp [runText] at h
  | cons t ts ih =>
    intro buf h
    rw [runText_cons] at h
    rw [List.cons_append, runText_cons, runText_cons buf t ts]
    cases hsd : (scanLive (buf ++ t)).sd with
    | true => simp [hsd]
    | false =>
      simp only [hsd, Bool.false_eq_true, if_false] at h ⊢
      rw [ih _ h]

theorem runText_evs_delta (ts : List JSStr) : ∀ (buf : JSStr),
    ∀ e ∈ (runText buf ts).evs, ∃ j, e = Ev.delta j := by
  induction ts with
  | nil => intro buf e he; simp [runText] at he
  | cons t ts ih =>
    intro buf e he
    rw [runText_cons] at he
    cases hsd : (scanLive (buf ++ t)).sd with
    | true =>
      simp only [hsd, if_true] at he
      exact scan_evs_delta e he
    | false =>
      simp only [hsd, Bool.false_eq_true, if_false] at he
      rcases List.mem_append.mp he with h' | h'
      · exact scan_evs_delta e h'
      · exact ih _ e h'

theorem runText_buf_suffix : ∀ (ts : List JSStr) (buf s0 : JSStr), lineEqBuf buf s0 →
    (runText buf ts).sd = false →
    ∃ p s, s0 ++ ts.flatten = p ++ s ∧ lineEqBuf (runText buf ts).buf s ∧
      (p = [] ∨ ∃ q, p = q ++ ['\n']) := by
  intro ts
  induction ts with
  | nil =>
    intro buf s0 hbs _
    exact ⟨[], s0, by simp, by simpa [runText] using hbs, Or.inl rfl⟩
  | cons t ts ih =>
    intro buf s0 hbs hsd
    rw [runText_cons] at hsd ⊢
    cases hs1 : (scanLive (buf ++ t)).sd with
    | true => simp [hs1] at hsd
    | false =>
      simp only [hs1, Bool.false_eq_true, if_false] at hsd ⊢
      have hap : lineEqBuf (buf ++ t) (s0 ++ t) := lineEqBuf_append t hbs
      obtain ⟨hevs, hsds, hbufs⟩ := scan_congr hap
      obtain ⟨p1, s1, hps1, hbuf1, hbd1⟩ := scan_buf_suffix (s0 ++ t)
      have hb1 : lineEqBuf (scanLive (buf ++ t)).buf s1 := lineEqBuf_trans hbufs hbuf1
      obtain ⟨p2, s2, hps2, hbuf2, hbd2⟩ := ih (scanLive (buf ++ t)).buf s1 hb1 hsd
      refine ⟨p1 ++ p2, s2, ?_, hbuf2, ?_⟩
      · calc s0 ++ (t :: ts).flatten = (s0 ++ t) ++ ts.flatten := by
              rw [List.flatten_cons, List.append_assoc]
          _ = (p1 ++ s1) ++ ts.flatten := by rw [hps1]
          _ = p1 ++ (s1 ++ ts.flatten) := by rw [List.append_assoc]
          _ = p1 ++ (p2 ++ s2) := by rw [hps2]
          _ = (p1 ++ p2) ++ s2 := by rw [List.append_assoc]
      · rcases hbd2 with h0 | ⟨q, hq⟩
        · subst h0; rw [List.append_nil]; exact hbd1
        · exact Or.inr ⟨p1 ++ q, by rw [hq, List.append_assoc]⟩

/-! ### Classification of data lines under explicit hypotheses -/

theorem startsWithL_data_not_colon (m : JSStr) : startsWithL (dataTag ++ m) colonTok = false := rfl

theorem jsTrim_data_nonempty {l : JSStr} (m : JSStr) (hm : l = dataTag ++ m) :
    (jsTrim l).isEmpty = false := by
  cases hb : (jsTrim l).isEmpty with
  | false => rfl
  | true =>
    have hall := (jsTrim_nil_iff l).mp hb
    have hd : ('d' : Char) ∈ l := by
      rw [hm]; exact List.mem_append_left _ (by decide)
    exact absurd (hall 'd' hd) (by decide)

theorem lineStep_data_case {l : JSStr} (hdata : startsWithL (stripCR l) dataTag = true) :
    lineStep l =
      if jsTrim ((stripCR l).drop 6) = doneTok then LineClass.sentinel
      else
        match tryDelta (jsTrim ((stripCR l).drop 6)) with
        | none => LineClass.fail
        | some es => LineClass.emit es := by
  obtain ⟨m, hm⟩ := (startsWithL_iff dataTag (stripCR l)).mp hdata
  have hcom : startsWithL (stripCR l) colonTok = false := by
    rw [hm]; exact startsWithL_data_not_colon m
  have hbl : (jsTrim (stripCR l)).isEmpty = false := jsTrim_data_nonempty m hm
  unfold lineStep lineCore
  rw [hcom, hbl, hdata]
  simp only [Bool.or_self, Bool.not_true, Bool.false_eq_true, if_false]

theorem lineStep_fail_of_parse {l : JSStr}
    (hdata : startsWithL (stripCR l) dataTag = true)
    (hnd : jsTrim ((stripCR l).drop 6) ≠ doneTok)
    (hparse : jsonParse (jsTrim ((stripCR l).drop 6)) = none) :
    lineStep l = LineClass.fail := by
  have htry : tryDelta (jsTrim ((stripCR l).drop 6)) = none := by
    unfold tryDelta; rw [hparse]
  rw [lineStep_data_case hdata, if_neg hnd, htry]

theorem lineStep_sentinel_of {l : JSStr}
    (hdata : startsWithL (stripCR l) dataTag = true)
    (hdone : jsTrim ((stripCR l).drop 6) = doneTok) :
    lineStep l = LineClass.sentinel := by
  rw [lineStep_data_case hdata, if_pos hdone]

theorem isEmpty_false_of_data {l : JSStr} (hdata : startsWithL (stripCR l) dataTag = true) :
    l.isEmpty = false := by
  cases l with
  | nil => exact absurd hdata (by decide)
  | cons c cs => rfl

/-! ### Shape of the full event stream -/

theorem streamEvents_clean_eq (parts : List (List Nat)) :
    streamEvents parts SourceEnd.clean =
      (runText [] (decodeTexts utf8Init parts).1).evs ++
      flushEvents (runText [] (decodeTexts utf8Init parts).1).buf ++ [Ev.done] := by
  unfold streamEvents
  cases h : (runText [] (decodeTexts utf8Init parts).1).sd <;> simp [h]

theorem streamEvents_failed_eq {parts : List (List Nat)}
    (h : (runText [] (decodeTexts utf8Init parts).1).sd = false) :
    streamEvents parts SourceEnd.failed =
      (runText [] (decodeTexts utf8Init parts).1).evs ++ [Ev.error (Json.str errConnMsg)] := by
  unfold streamEvents
  simp [h]

theorem streamEvents_sd_true {parts : List (List Nat)}
    (h : (runText [] (decodeTexts utf8Init parts).1).sd = true) (ending : SourceEnd) :
    streamEvents parts ending =
      (runText [] (decodeTexts utf8Init parts).1).evs ++
      flushEvents (runText [] (decodeTexts utf8Init parts).1).buf ++ [Ev.done] := by
  unfold streamEvents
  simp [h]

/-! ### Claim theorems -/

/-- C4: during live decoding, whenever a terminator-terminated data line's
payload fails to parse as JSON, `streamChat` reconstructs the line (as the
carriage-return-normalized logical line), pushes it back to the front of
the pending buffer followed by a terminator, stops the inner scan loop for
this chunk, emits no delta for the line, and signals no error (the scan
returns no events and leaves `streamDone` unset). -/
theorem c4_split_frame_pushback (l0 rest : JSStr)
    (hnl : '\n' ∉ l0)
    (hdata : startsWithL (stripCR l0) dataTag = true)
    (hnd : jsTrim ((stripCR l0).drop 6) ≠ doneTok)
    (hparse : jsonParse (jsTrim ((stripCR l0).drop 6)) = none) :
    scanLive (l0 ++ '\n' :: rest) = ⟨[], stripCR l0 ++ '\n' :: rest, false⟩ :=
  scanLive_fail (splitNL_of_not_mem rest hnl) (lineStep_fail_of_parse hdata hnd hparse)

/-- Witness for C4 at the concrete line `data: not-json` followed by
buffered text `xyz`. -/
theorem c4_split_frame_pushback_witness :
    ('\n' ∉ str "data: not-json") ∧
    startsWithL (stripCR (str "data: not-json")) dataTag = true ∧
    jsTrim ((stripCR (str "data: not-json")).drop 6) ≠ doneTok ∧
    jsonParse (jsTrim ((stripCR (str "data: not-json")).drop 6)) = none ∧
    scanLive (str "data: not-json" ++ '\n' :: str "xyz") =
      ⟨[], stripCR (str "data: not-json") ++ '\n' :: str "xyz", false⟩ :=
  ⟨by decide, by decide, by decide, rfl,
   c4_split_frame_pushback (str "data: not-json") (str "xyz")
     (by decide) (by decide) (by decide) rfl⟩

/-- C5: at final flush, a data line whose payload still fails to parse as
JSON is silently discarded (it produces no event, in particular no delta
and no error), and on the concrete stream consisting of the single line
`data: not-json` followed by clean source exhaustion the decoder emits
completion only. -/
theorem c5_flush_discards_unparsable (raw : JSStr)
    (hdata : startsWithL (stripCR raw) dataTag = true)
    (hnd : jsTrim ((stripCR raw).drop 6) ≠ doneTok)
    (hparse : jsonParse (jsTrim ((stripCR raw).drop 6)) = none) :
    flushLine raw = [] ∧
    streamEvents [asciiBytes "data: not-json\n"] SourceEnd.clean = [Ev.done] := by
  constructor
  · have h1 : raw.isEmpty = false := isEmpty_false_of_data hdata
    have h2 : lineStep raw = LineClass.fail := lineStep_fail_of_parse hdata hnd hparse
    unfold flushLine
    rw [h1, h2]
    rfl
  · rfl

/-- Witness for C5 at the concrete flush line `data: oops`. -/
theorem c5_flush_discards_unparsable_witness :
    startsWithL (stripCR (str "data: oops")) dataTag = true ∧
    jsTrim ((stripCR (str "data: oops")).drop 6) ≠ doneTok ∧
    jsonParse (jsTrim ((stripCR (str "data: oops")).drop 6)) = none ∧
    flushLine (str "data: oops") = [] ∧
    streamEvents [asciiBytes "data: not-json\n"] SourceEnd.clean = [Ev.done] :=
  ⟨by decide, by decide, rfl,
   c5_flush_discards_unparsable (str "data: oops") (by decide) (by decide) rfl⟩

/-- C10: during the final flush a line whose payload equals the sentinel
token is skipped rather than terminating processing, and on a leftover
buffer holding a sentinel line followed by two parseable data lines the
deltas of the later lines are still emitted before completion. -/
theorem c10_flush_skips_sentinel (raw : JSStr)
    (hdata : startsWithL (stripCR raw) dataTag = true)
    (hdone : jsTrim ((stripCR raw).drop 6) = doneTok) :
    flushLine raw = [] ∧
    streamEvents
        [asciiBytes "data: [DONE]\ndata: \x7b\"choices\":[\x7b\"delta\":\x7b\"content\":\"y1\"\x7d\x7d]\x7d\ndata: \x7b\"choices\":[\x7b\"delta\":\x7b\"content\":\"y2\"\x7d\x7d]\x7d\n"]
        SourceEnd.clean
      = [Ev.delta (Json.str (str "y1")), Ev.delta (Json.str (str "y2")), Ev.done] := by
  constructor
  · have h1 : raw.isEmpty = false := isEmpty_false_of_data hdata
    have h2 : lineStep raw = LineClass.sentinel := lineStep_sentinel_of hdata hdone
    unfold flushLine
    rw [h1, h2]
    rfl
  · rfl

/-- Witness for C10 at the concrete flush line `data: [DONE]`. -/
theorem c10_flush_skips_sentinel_witness :
    startsWithL (stripCR (str "data: [DONE]")) dataTag = true ∧
    jsTrim ((stripCR (str "data: [DONE]")).drop 6) = doneTok ∧
    flushLine (str "data: [DONE]") = [] ∧
    streamEvents
        [asciiBytes "data: [DONE]\ndata: \x7b\"choices\":[\x7b\"delta\":\x7b\"content\":\"y1\"\x7d\x7d]\x7d\ndata: \x7b\"choices\":[\x7b\"delta\":\x7b\"content\":\"y2\"\x7d\x7d]\x7d\n"]
        SourceEnd.clean
      = [Ev.delta (Json.str (str "y1")), Ev.delta (Json.str (str "y2")), Ev.done] :=
  ⟨by decide, by decide,
   c10_flush_skips_sentinel (str "data: [DONE]") (by decide) (by decide)⟩

/-- C2: for every input stream, the decode loop emits exactly one terminal
event, it is the last event, every earlier event is a delta (so completion
and error are mutually exclusive and neither is invoked twice), and when
the byte source ends cleanly the terminal event is completion, emitted
after the final flush. -/
theorem c2_single_terminal (parts : List (List Nat)) (ending : SourceEnd) :
    ∃ ds last, streamEvents parts ending = ds ++ [last] ∧
      (∀ e ∈ ds, ∃ j, e = Ev.delta j) ∧
      (last = Ev.done ∨ ∃ m, last = Ev.error m) ∧
      (ending = SourceEnd.clean → last = Ev.done) := by
  cases hsd : (runText [] (decodeTexts utf8Init parts).1).sd with
  | true =>
    refine ⟨(runText [] (decodeTexts utf8Init parts).1).evs ++
              flushEvents (runText [] (decodeTexts utf8Init parts).1).buf,
            Ev.done, ?_, ?_, Or.inl rfl, fun _ => rfl⟩
    · rw [streamEvents_sd_true hsd ending, List.append_assoc]
    · intro e he
      rcases List.mem_append.mp he with h' | h'
      · exact runText_evs_delta _ _ e h'
      · exact flush_evs_delta e h'
  | false =>
    cases ending with
    | clean =>
      refine ⟨(runText [] (decodeTexts utf8Init parts).1).evs ++
                flushEvents (runText [] (decodeTexts utf8Init parts).1).buf,
              Ev.done, ?_, ?_, Or.inl rfl, fun _ => rfl⟩
      · rw [streamEvents_clean_eq parts, List.append_assoc]
      · intro e he
        rcases List.mem_append.mp he with h' | h'
        · exact runText_evs_delta _ _ e h'
        · exact flush_evs_delta e h'
    | failed =>
      refine ⟨(runText [] (decodeTexts utf8Init parts).1).evs,
              Ev.error (Json.str errConnMsg), ?_, ?_,
              Or.inr ⟨Json.str errConnMsg, rfl⟩, fun hcl => nomatch hcl⟩
      · exact streamEvents_failed_eq hsd
      · intro e he
        exact runText_evs_delta _ _ e he

/-- Witness for C2 at a concrete stream (one valid data line, clean close). -/
theorem c2_single_terminal_witness :
    ∃ ds last,
      streamEvents [asciiBytes "data: \x7b\"choices\":[\x7b\"delta\":\x7b\"content\":\"hi\"\x7d\x7d]\x7d\n"]
          SourceEnd.clean = ds ++ [last] ∧
      (∀ e ∈ ds, ∃ j, e = Ev.delta j) ∧
      (last = Ev.done ∨ ∃ m, last = Ev.error m) ∧
      (SourceEnd.clean = SourceEnd.clean → last = Ev.done) :=
  c2_single_terminal
    [asciiBytes "data: \x7b\"choices\":[\x7b\"delta\":\x7b\"content\":\"hi\"\x7d\x7d]\x7d\n"]
    SourceEnd.clean

/-- C3 (amended): once a data line's trimmed payload equals the sentinel
during live decoding, `streamDone` is set and no further chunk is read —
every subsequent chunk is ignored and even a pending transport failure is
never observed — and the session ends with the final flush of the bytes
already buffered (which can still emit deltas for data lines after the
sentinel, see the counterexample) followed by completion. -/
theorem c3_sentinel_stops_reading (parts more : List (List Nat)) (ending : SourceEnd)
    (h : (runText [] (decodeTexts utf8Init parts).1).sd = true) :
    streamEvents (parts ++ more) ending = streamEvents parts SourceEnd.clean := by
  have hrun : runText [] (decodeTexts utf8Init (parts ++ more)).1 =
      runText [] (decodeTexts utf8Init parts).1 := by
    rw [decodeTexts_append]
    exact runText_append_sd _ _ _ h
  have h2 : (runText [] (decodeTexts utf8Init (parts ++ more)).1).sd = true := by
    rw [hrun]; exact h
  rw [streamEvents_sd_true h2 ending, streamEvents_clean_eq parts, hrun]

/-- Witness for C3 at a concrete sentinel chunk followed by an ignored
data chunk and a pending transport failure. -/
theorem c3_sentinel_stops_reading_witness :
    (runText [] (decodeTexts utf8Init [asciiBytes "data: [DONE]\n"]).1).sd = true ∧
    streamEvents
        [asciiBytes "data: [DONE]\n",
         asciiBytes "data: \x7b\"choices\":[\x7b\"delta\":\x7b\"content\":\"z\"\x7d\x7d]\x7d\n"]
        SourceEnd.failed
      = streamEvents [asciiBytes "data: [DONE]\n"] SourceEnd.clean :=
  ⟨rfl,
   c3_sentinel_stops_reading [asciiBytes "data: [DONE]\n"]
     [asciiBytes "data: \x7b\"choices\":[\x7b\"delta\":\x7b\"content\":\"z\"\x7d\x7d]\x7d\n"]
     SourceEnd.failed rfl⟩

/-- Counterexample for C3 as stated: with the sentinel line and a
subsequent data line arriving in the same chunk, the bytes after the
sentinel are not ignored — the final flush still emits a delta for them
before completion. -/
theorem c3_counterexample :
    streamEvents
        [asciiBytes "data: [DONE]\ndata: \x7b\"choices\":[\x7b\"delta\":\x7b\"content\":\"w\"\x7d\x7d]\x7d\n"]
        SourceEnd.clean
      = [Ev.delta (Json.str (str "w")), Ev.done] ∧
    streamEvents
        [asciiBytes "data: [DONE]\ndata: \x7b\"choices\":[\x7b\"delta\":\x7b\"content\":\"w\"\x7d\x7d]\x7d\n"]
        SourceEnd.clean
      ≠ [Ev.done] := by
  refine ⟨rfl, ?_⟩
  intro h
  have h' : ([Ev.delta (Json.str (str "w")), Ev.done] : List Ev) = [Ev.done] := h
  simp at h'

/-- C6: when the byte source throws after the listed chunks and the
sentinel was not seen, the decoder surfaces exactly one error after the
deltas already emitted, performs no final flush (the events are exactly
the live-scan deltas plus the error), and never calls completion. -/
theorem c6_transport_failure (parts : List (List Nat))
    (h : (runText [] (decodeTexts utf8Init parts).1).sd = false) :
    streamEvents parts SourceEnd.failed =
      (runText [] (decodeTexts utf8Init parts).1).evs ++ [Ev.error (Json.str errConnMsg)] ∧
    Ev.done ∉ streamEvents parts SourceEnd.failed ∧
    ∀ e ∈ (runText [] (decodeTexts utf8Init parts).1).evs, ∃ j, e = Ev.delta j := by
  refine ⟨streamEvents_failed_eq h, ?_, runText_evs_delta _ _⟩
  rw [streamEvents_failed_eq h]
  intro hmem
  rcases List.mem_append.mp hmem with h' | h'
  · obtain ⟨j, hj⟩ := runText_evs_delta _ _ _ h'
    exact nomatch hj
  · simp at h'

/-- Witness for C6: a valid delta was emitted, then the transport fails;
the unflushed buffer still holds a parseable data line whose delta is not
emitted. -/
theorem c6_transport_failure_witness :
    (runText [] (decodeTexts utf8Init
        [asciiBytes "data: \x7b\"choices\":[\x7b\"delta\":\x7b\"content\":\"hi\"\x7d\x7d]\x7d\ndata: \x7b\"choices\":[\x7b\"delta\":\x7b\"content\":\"y\"\x7d\x7d]\x7d"]).1).sd = false ∧
    (streamEvents
        [asciiBytes "data: \x7b\"choices\":[\x7b\"delta\":\x7b\"content\":\"hi\"\x7d\x7d]\x7d\ndata: \x7b\"choices\":[\x7b\"delta\":\x7b\"content\":\"y\"\x7d\x7d]\x7d"]
        SourceEnd.failed =
      (runText [] (decodeTexts utf8Init
        [asciiBytes "data: \x7b\"choices\":[\x7b\"delta\":\x7b\"content\":\"hi\"\x7d\x7d]\x7d\ndata: \x7b\"choices\":[\x7b\"delta\":\x7b\"content\":\"y\"\x7d\x7d]\x7d"]).1).evs
        ++ [Ev.error (Json.str errConnMsg)] ∧
      Ev.done ∉ streamEvents
        [asciiBytes "data: \x7b\"choices\":[\x7b\"delta\":\x7b\"content\":\"hi\"\x7d\x7d]\x7d\ndata: \x7b\"choices\":[\x7b\"delta\":\x7b\"content\":\"y\"\x7d\x7d]\x7d"]
        SourceEnd.failed ∧
      ∀ e ∈ (runText [] (decodeTexts utf8Init
        [asciiBytes "data: \x7b\"choices\":[\x7b\"delta\":\x7b\"content\":\"hi\"\x7d\x7d]\x7d\ndata: \x7b\"choices\":[\x7b\"delta\":\x7b\"content\":\"y\"\x7d\x7d]\x7d"]).1).evs,
        ∃ j, e = Ev.delta j) :=
  ⟨rfl,
   c6_transport_failure
     [asciiBytes "data: \x7b\"choices\":[\x7b\"delta\":\x7b\"content\":\"hi\"\x7d\x7d]\x7d\ndata: \x7b\"choices\":[\x7b\"delta\":\x7b\"content\":\"y\"\x7d\x7d]\x7d"]
     rfl⟩

/-- C7 (amended): on a non-success response status, `streamChat` surfaces
exactly one terminal error — the response body's `error` member when it is
truthy, otherwise the status-derived fallback (rate-limit message for 429,
quota message for 402, generic connection-failure message otherwise), and
the outer-catch network message when reading the member throws — without
decoding any bytes: no delta is emitted and completion is never called. -/
theorem c7_status_error (r : Resp) (h : r.ok = false) :
    streamChatRun r = [Ev.error (errMsgFor r)] ∧
    Ev.done ∉ streamChatRun r ∧
    ∀ j, Ev.delta j ∉ streamChatRun r := by
  have hrun : streamChatRun r = [Ev.error (errMsgFor r)] := by
    unfold streamChatRun
    simp [h]
  refine ⟨hrun, ?_, ?_⟩
  · rw [hrun]
    intro hmem
    rcases List.mem_cons.mp hmem with h' | h'
    · exact nomatch h'
    · simp at h'
  · intro j
    rw [hrun]
    intro hmem
    rcases List.mem_cons.mp hmem with h' | h'
    · exact nomatch h'
    · simp at h'

/-- Witness for C7: a 429 response with no usable body error field yields
the rate-limit fallback message. -/
theorem c7_status_error_witness :
    (Resp.mk false 429 none true [] SourceEnd.clean).ok = false ∧
    (streamChatRun (Resp.mk false 429 none true [] SourceEnd.clean) =
        [Ev.error (errMsgFor (Resp.mk false 429 none true [] SourceEnd.clean))] ∧
      Ev.done ∉ streamChatRun (Resp.mk false 429 none true [] SourceEnd.clean) ∧
      ∀ j, Ev.delta j ∉ streamChatRun (Resp.mk false 429 none true [] SourceEnd.clean)) ∧
    errMsgFor (Resp.mk false 429 none true [] SourceEnd.clean) = Json.str msg429 :=
  ⟨rfl, c7_status_error (Resp.mk false 429 none true [] SourceEnd.clean) rfl, rfl⟩

/-- Counterexample for C7 as stated: with status 429 and a truthy `error`
member in the response body, the surfaced message is the body's, not the
status-derived rate-limit message. -/
theorem c7_counterexample :
    streamChatRun
        (Resp.mk false 429 (some (Json.obj [(str "error", Json.str (str "custom"))]))
          true [] SourceEnd.clean)
      = [Ev.error (Json.str (str "custom"))] ∧
    streamChatRun
        (Resp.mk false 429 (some (Json.obj [(str "error", Json.str (str "custom"))]))
          true [] SourceEnd.clean)
      ≠ [Ev.error (Json.str msg429)] := by
  refine ⟨rfl, ?_⟩
  intro h
  have h' : ([Ev.error (Json.str (str "custom"))] : List Ev) = [Ev.error (Json.str msg429)] := h
  injection h' with h1 _
  injection h1 with h2
  injection h2 with h3
  exact absurd h3 (by decide)

/-- C8 (amended): at any instant before termination (the accumulated run
over the decoded chunk texts has not set `streamDone`), the pending buffer
equals — up to the loss of trailing carriage returns on a line that was
pushed back after a parse failure — the suffix of all text received so far
that lies after the last extracted logical line; the consumed part is
empty or ends at a line terminator. -/
theorem c8_buffer_suffix_invariant (ts : List JSStr)
    (h : (runText [] ts).sd = false) :
    ∃ p s, ts.flatten = p ++ s ∧ lineEqBuf (runText [] ts).buf s ∧
      (p = [] ∨ ∃ q, p = q ++ ['\n']) := by
  have hmain := runText_buf_suffix ts [] [] (lineEqBuf_refl []) h
  simpa using hmain

/-- Witness for C8 at a concrete text containing one skipped comment line
and a trailing fragment. -/
theorem c8_buffer_suffix_invariant_witness :
    (runText [] [str ": keep-alive\nfrag"]).sd = false ∧
    ∃ p s, ([str ": keep-alive\nfrag"] : List JSStr).flatten = p ++ s ∧
      lineEqBuf (runText [] [str ": keep-alive\nfrag"]).buf s ∧
      (p = [] ∨ ∃ q, p = q ++ ['\n']) :=
  ⟨rfl, c8_buffer_suffix_invariant [str ": keep-alive\nfrag"] rfl⟩

/-- Counterexample for C8 as stated: after receiving the single chunk text
`data: x` + CR + LF, the failed line is pushed back without its carriage
return, so the pending buffer is not a suffix of the text received at all
(in particular it equals neither the whole received text nor the empty
suffix), even though no line was successfully processed. -/
theorem c8_counterexample :
    (scanLive (str "data: x\r\n")).evs = [] ∧
    (scanLive (str "data: x\r\n")).buf = str "data: x\n" ∧
    ¬ ((scanLive (str "data: x\r\n")).buf <:+ str "data: x\r\n") := by
  refine ⟨rfl, rfl, ?_⟩
  intro hsuf
  have h' : str "data: x\n" <:+ str "data: x\r\n" := hsuf
  exact absurd h' (by decide)

/-- C1 (amended): for every byte sequence and every way of splitting it
into chunks — including splits inside a multi-byte character, inside the
`data: ` marker, or inside the JSON payload — the decode loop emits the
same event sequence as over the single-chunk delivery, provided either no
sentinel line fires during the single-chunk scan or nothing follows the
sentinel line's terminator (the buffer left after the sentinel is empty).
Without that proviso the property fails, because chunks after the
sentinel are never read while same-chunk bytes after it are flushed. -/
theorem c1_chunk_invariance (bytes : List Nat) (parts : List (List Nat))
    (hsplit : parts.flatten = bytes)
    (hok : (scanLive (utf8Run utf8Init bytes).1).sd = false ∨
           (scanLive (utf8Run utf8Init bytes).1).buf = []) :
    streamEvents parts SourceEnd.clean = streamEvents [bytes] SourceEnd.clean := by
  have hflat : (decodeTexts utf8Init parts).1.flatten = (utf8Run utf8Init bytes).1 := by
    rw [decodeTexts_flatten, hsplit]
  have hsingle : (decodeTexts utf8Init [bytes]).1 = [(utf8Run utf8Init bytes).1] := rfl
  have hm := runText_single (decodeTexts utf8Init parts).1 [] quiescent_nil
  rw [List.nil_append, hflat] at hm
  obtain ⟨hevs, hsd, hf, ht⟩ := hm
  have hs := runText_single [(utf8Run utf8Init bytes).1] [] quiescent_nil
  simp only [List.flatten_cons, List.flatten_nil, List.append_nil, List.nil_append] at hs
  obtain ⟨hevs2, hsd2, hf2, ht2⟩ := hs
  rw [streamEvents_clean_eq parts, streamEvents_clean_eq [bytes], hsingle]
  have hevseq : (runText [] (decodeTexts utf8Init parts).1).evs =
      (runText [] [(utf8Run utf8Init bytes).1]).evs := by rw [hevs, hevs2]
  have hflusheq : flushEvents (runText [] (decodeTexts utf8Init parts).1).buf =
      flushEvents (runText [] [(utf8Run utf8Init bytes).1]).buf := by
    cases hsd0 : (scanLive (utf8Run utf8Init bytes).1).sd with
    | false =>
      exact flush_congr (lineEqBuf_trans (hf hsd0) (lineEqBuf_symm (hf2 hsd0)))
    | true =>
      rcases hok with hok | hok
      · rw [hok] at hsd0
        exact absurd hsd0 (by simp)
      · obtain ⟨u, hu⟩ := ht hsd0
        obtain ⟨u2, hu2⟩ := ht2 hsd0
        rw [hok] at hu hu2
        have hm0 : (runText [] (decodeTexts utf8Init parts).1).buf = [] :=
          (List.append_eq_nil.mp hu.symm).1
        have hs0 : (runText [] [(utf8Run utf8Init bytes).1]).buf = [] :=
          (List.append_eq_nil.mp hu2.symm).1
        rw [hm0, hs0]
  rw [hevseq, hflusheq]

/-- Witness for C1 at a concrete stream whose single data line carries a
two-byte UTF-8 character, delivered split in the middle of that
character: both deliveries produce identical events. -/
theorem c1_chunk_invariance_witness :
    ([asciiBytes "data: \x7b\"choices\":[\x7b\"delta\":\x7b\"content\":\"h" ++ [0xC3],
      [0xA9] ++ asciiBytes "llo\"\x7d\x7d]\x7d\n"] : List (List Nat)).flatten =
      asciiBytes "data: \x7b\"choices\":[\x7b\"delta\":\x7b\"content\":\"h" ++
        [0xC3, 0xA9] ++ asciiBytes "llo\"\x7d\x7d]\x7d\n" ∧
    (scanLive (utf8Run utf8Init
        (asciiBytes "data: \x7b\"choices\":[\x7b\"delta\":\x7b\"content\":\"h" ++
          [0xC3, 0xA9] ++ asciiBytes "llo\"\x7d\x7d]\x7d\n")).1).sd = false ∧
    streamEvents
        [asciiBytes "data: \x7b\"choices\":[\x7b\"delta\":\x7b\"content\":\"h" ++ [0xC3],
         [0xA9] ++ asciiBytes "llo\"\x7d\x7d]\x7d\n"] SourceEnd.clean =
      streamEvents
        [asciiBytes "data: \x7b\"choices\":[\x7b\"delta\":\x7b\"content\":\"h" ++
          [0xC3, 0xA9] ++ asciiBytes "llo\"\x7d\x7d]\x7d\n"] SourceEnd.clean :=
  ⟨rfl, rfl,
   c1_chunk_invariance
     (asciiBytes "data: \x7b\"choices\":[\x7b\"delta\":\x7b\"content\":\"h" ++
       [0xC3, 0xA9] ++ asciiBytes "llo\"\x7d\x7d]\x7d\n")
     [asciiBytes "data: \x7b\"choices\":[\x7b\"delta\":\x7b\"content\":\"h" ++ [0xC3],
      [0xA9] ++ asciiBytes "llo\"\x7d\x7d]\x7d\n"]
     rfl (Or.inl rfl)⟩

/-- Counterexample for C1 as stated (every byte sequence, every split):
for the byte sequence holding a sentinel line followed by a data line,
single-chunk delivery emits the delta of the trailing line (via the final
flush) while the two-chunk delivery split at the line boundary emits no
delta, so the delta sequences differ. -/
theorem c1_counterexample :
    ([asciiBytes "data: [DONE]\n",
      asciiBytes "data: \x7b\"choices\":[\x7b\"delta\":\x7b\"content\":\"x\"\x7d\x7d]\x7d\n"]
        : List (List Nat)).flatten =
      asciiBytes "data: [DONE]\ndata: \x7b\"choices\":[\x7b\"delta\":\x7b\"content\":\"x\"\x7d\x7d]\x7d\n" ∧
    streamEvents
        [asciiBytes "data: [DONE]\ndata: \x7b\"choices\":[\x7b\"delta\":\x7b\"content\":\"x\"\x7d\x7d]\x7d\n"]
        SourceEnd.clean
      = [Ev.delta (Json.str (str "x")), Ev.done] ∧
    streamEvents
        [asciiBytes "data: [DONE]\n",
         asciiBytes "data: \x7b\"choices\":[\x7b\"delta\":\x7b\"content\":\"x\"\x7d\x7d]\x7d\n"]
        SourceEnd.clean
      = [Ev.done] ∧
    streamEvents
        [asciiBytes "data: [DONE]\ndata: \x7b\"choices\":[\x7b\"delta\":\x7b\"content\":\"x\"\x7d\x7d]\x7d\n"]
        SourceEnd.clean
      ≠ streamEvents
        [asciiBytes "data: [DONE]\n",
         asciiBytes "data: \x7b\"choices\":[\x7b\"delta\":\x7b\"content\":\"x\"\x7d\x7d]\x7d\n"]
        SourceEnd.clean := by
  refine ⟨rfl, rfl, rfl, ?_⟩
  intro h
  have h' : ([Ev.delta (Json.str (str "x")), Ev.done] : List Ev) = [Ev.done] := h
  simp at h'
